import Mathlib

/-!
Verification development for the OGC building-blocks postprocessing core
(`ogc/bblocks`: `models.py`, `schema.py`, `extension.py`).

The Python sources are shallowly embedded: JSON/YAML documents become the
`JVal` inductive, Python dicts become ordered association lists (Python
dicts preserve insertion order), mutation becomes explicit state passing,
and exceptions become `Except`/`Option` results.  Third-party collaborators
(`networkx`, `ogc.na`, `requests`) are modelled from their documented
contracts: `nx.topological_sort`/`nx.simple_cycles` as an executable
Kahn sort and a simple-cycle enumeration over the same graph data, schema
reference resolution (`ogc.na.annotate_schema.SchemaResolver`) as lookup in
an explicit document store keyed by canonical location (the flat,
fragment-free case exercised by the scenarios), and HTTP fetching as lookup
in an explicit world of register documents.
-/

/-- JSON/YAML value, mirroring the documents the Python code manipulates.
Objects are ordered association lists, like Python dicts. -/
inductive JVal where
  | str (s : String)
  | num (n : Int)
  | boolean (b : Bool)
  | null
  | arr (items : List JVal)
  | obj (fields : List (String × JVal))

/-- Lookup of a key in an object field list (first match, like a dict with
unique keys). -/
def lookupField : List (String × JVal) → String → Option JVal
  | [], _ => none
  | (k, v) :: rest, key => if k == key then some v else lookupField rest key

/-- Removal of a key from an object field list (`dict.pop`). -/
def eraseField (fs : List (String × JVal)) (key : String) : List (String × JVal) :=
  fs.filter (fun f => f.1 != key)

/-- Assignment `d[k] = v` on a Python dict: replaces in place if the key
exists, appends otherwise. -/
def setField : List (String × JVal) → String → JVal → List (String × JVal)
  | [], key, v => [(key, v)]
  | (k0, v0) :: rest, key, v =>
    if k0 == key then (k0, v) :: rest else (k0, v0) :: setField rest key v

def JVal.lookupKey : JVal → String → Option JVal
  | .obj fs, key => lookupField fs key
  | _, _ => none

def JVal.eraseKey : JVal → String → JVal
  | .obj fs, key => .obj (eraseField fs key)
  | v, _ => v

def JVal.hasKey (j : JVal) (key : String) : Bool :=
  (j.lookupKey key).isSome

def JVal.setKey : JVal → String → JVal → JVal
  | .obj fs, key, v => .obj (setField fs key v)
  | j, _, _ => j

/-- Python `dict.update(other)`: every key of `other` is assigned in order. -/
def JVal.updateWith : JVal → JVal → JVal
  | .obj fs, .obj other => .obj (other.foldl (fun acc kv => setField acc kv.1 kv.2) fs)
  | j, _ => j

/-- Python truthiness for the values the walk inspects. -/
def JVal.isTruthy : JVal → Bool
  | .obj fs => !fs.isEmpty
  | .arr xs => !xs.isEmpty
  | .str s => !s.isEmpty
  | .num n => n != 0
  | .boolean b => b
  | .null => false

def JVal.keys : JVal → List String
  | .obj fs => fs.map (fun f => f.1)
  | _ => []

/-! ## Preserve-flag marking (`extension.py`, `SchemaNode.mark_preserve_branch`)

`SchemaNode` objects form a tree through mutable `parent` back-references;
`preserve_branch` starts `False` and is only ever written by
`mark_preserve_branch`, which walks from a node towards the root, setting
the flag and stopping early at the first node whose flag is already set.
We model the node store as a list indexed by creation order: a node's
parent always exists before it, so parent indices are strictly smaller. -/

structure PNode where
  parent : Option Nat
  preserve_branch : Bool

def parentOf (ns : List PNode) (i : Nat) : Option Nat :=
  match ns[i]? with
  | some n => n.parent
  | none => none

def preserveOf (ns : List PNode) (i : Nat) : Bool :=
  match ns[i]? with
  | some n => n.preserve_branch
  | none => false

/-- The `while n is not None` loop of `mark_preserve_branch`: set the flag,
move to the parent, stop early at an already-set flag.  Fuel bounds the
walk; `i + 1` steps always suffice because parent indices decrease. -/
def markLoop : Nat → List PNode → Nat → List PNode
  | 0, ns, _ => ns
  | fuel + 1, ns, i =>
    match ns[i]? with
    | none => ns
    | some n =>
      if n.preserve_branch then ns
      else
        let ns2 := ns.set i ⟨n.parent, true⟩
        match n.parent with
        | none => ns2
        | some p => markLoop fuel ns2 p

def mark_preserve_branch (ns : List PNode) (i : Nat) : List PNode :=
  markLoop (i + 1) ns i

/-- Well-formedness of the node store: a parent is created before its
children, so parent indices are strictly smaller. -/
def wfStore (ns : List PNode) : Bool :=
  (List.range ns.length).all fun j =>
    match ns[j]? with
    | some n =>
      match n.parent with
      | some p => decide (p < j)
      | none => true
    | none => true

/-- The monotonicity invariant: no node has its preserve flag set while its
parent's flag is unset. -/
def preserveInv (ns : List PNode) : Bool :=
  (List.range ns.length).all fun j =>
    match ns[j]? with
    | some n =>
      if n.preserve_branch then
        match n.parent with
        | some p => preserveOf ns p
        | none => true
      else true
    | none => true

/-- `k` is `i` itself or an ancestor of `i` through the parent chain. -/
inductive AncestorOf (ns : List PNode) : Nat → Nat → Prop
  | refl (i : Nat) : AncestorOf ns i i
  | up (i p k : Nat) : parentOf ns i = some p → AncestorOf ns p k → AncestorOf ns i k

theorem getElem?_isSome_of_parentOf {ns : List PNode} {j p : Nat}
    (hp : parentOf ns j = some p) : ∃ n, ns[j]? = some n ∧ n.parent = some p := by
  unfold parentOf at hp
  cases hj : ns[j]? with
  | none => rw [hj] at hp; cases hp
  | some n => rw [hj] at hp; exact ⟨n, rfl, hp⟩

theorem lt_length_of_getElem?_pnode {ns : List PNode} {j : Nat} {n : PNode}
    (hj : ns[j]? = some n) : j < ns.length := by
  by_contra hcon
  rw [List.getElem?_eq_none (Nat.le_of_not_lt hcon)] at hj
  cases hj

theorem wfStore_lt {ns : List PNode} (h : wfStore ns = true) {j p : Nat}
    (hp : parentOf ns j = some p) : p < j := by
  obtain ⟨n, hj, hpar⟩ := getElem?_isSome_of_parentOf hp
  have hjlen : j < ns.length := lt_length_of_getElem?_pnode hj
  have := List.all_eq_true.mp h j (List.mem_range.mpr hjlen)
  simp only [hj, hpar] at this
  exact of_decide_eq_true this

theorem preserveInv_parent {ns : List PNode} (h : preserveInv ns = true) {j p : Nat}
    (hpres : preserveOf ns j = true) (hp : parentOf ns j = some p) :
    preserveOf ns p = true := by
  obtain ⟨n, hj, hpar⟩ := getElem?_isSome_of_parentOf hp
  have hjlen : j < ns.length := lt_length_of_getElem?_pnode hj
  have hn : n.preserve_branch = true := by
    unfold preserveOf at hpres
    rw [hj] at hpres
    exact hpres
  have := List.all_eq_true.mp h j (List.mem_range.mpr hjlen)
  simp only [hj, hn, if_true, hpar] at this
  exact this

/-- Under the invariant, a preserved node's whole ancestor chain is
preserved. -/
theorem preserveInv_chain {ns : List PNode} (h : preserveInv ns = true) {i k : Nat}
    (ha : AncestorOf ns i k) (hpres : preserveOf ns i = true) :
    preserveOf ns k = true := by
  induction ha with
  | refl => exact hpres
  | up j p k hp _ ih => exact ih (preserveInv_parent h hpres hp)

theorem parentOf_set_true (ns : List PNode) (i j : Nat) (q : Option Nat) :
    parentOf (ns.set i ⟨q, true⟩) j = if j = i ∧ i < ns.length then q else parentOf ns j := by
  unfold parentOf
  by_cases hij : j = i
  · subst hij
    by_cases hlen : j < ns.length
    · rw [List.getElem?_set_self (by simpa using hlen)]
      simp [hlen]
    · rw [List.set_eq_of_length_le (Nat.le_of_not_lt hlen)]
      simp [hlen]
  · rw [List.getElem?_set_ne (fun hcon => hij hcon.symm)]
    simp [hij]

theorem preserveOf_set_true (ns : List PNode) (i j : Nat) (q : Option Nat) :
    preserveOf (ns.set i ⟨q, true⟩) j =
      if j = i ∧ i < ns.length then true else preserveOf ns j := by
  unfold preserveOf
  by_cases hij : j = i
  · subst hij
    by_cases hlen : j < ns.length
    · rw [List.getElem?_set_self (by simpa using hlen)]
      simp [hlen]
    · rw [List.set_eq_of_length_le (Nat.le_of_not_lt hlen)]
      simp [hlen]
  · rw [List.getElem?_set_ne (fun hcon => hij hcon.symm)]
    simp [hij]

theorem markLoop_parentOf (fuel : Nat) (ns : List PNode) (i j : Nat) :
    parentOf (markLoop fuel ns i) j = parentOf ns j := by
  induction fuel generalizing ns i with
  | zero => rfl
  | succ fuel ih =>
    unfold markLoop
    cases hi : ns[i]? with
    | none => rfl
    | some n =>
      simp only []
      by_cases hpres : n.preserve_branch = true
      · simp [hpres]
      · rw [if_neg hpres]
        have hilen : i < ns.length := lt_length_of_getElem?_pnode hi
        have hparent : parentOf ns i = n.parent := by
          unfold parentOf; rw [hi]
        have hsetpar : ∀ a, parentOf (ns.set i ⟨n.parent, true⟩) a = parentOf ns a := by
          intro a
          rw [parentOf_set_true]
          by_cases hai : a = i
          · subst hai; simp [hilen, hparent]
          · simp [hai]
        cases hpar : n.parent with
        | none =>
          rw [hpar] at hsetpar
          exact hsetpar j
        | some p =>
          rw [hpar] at hsetpar
          simp only []
          rw [ih]
          exact hsetpar j

theorem markLoop_length (fuel : Nat) (ns : List PNode) (i : Nat) :
    (markLoop fuel ns i).length = ns.length := by
  induction fuel generalizing ns i with
  | zero => rfl
  | succ fuel ih =>
    unfold markLoop
    cases hi : ns[i]? with
    | none => rfl
    | some n =>
      simp only []
      by_cases hpres : n.preserve_branch = true
      · simp [hpres]
      · rw [if_neg hpres]
        cases hpar : n.parent with
        | none => simp
        | some p => simp only []; rw [ih]; simp

/-- The marking loop never clears a flag. -/
theorem markLoop_mono (fuel : Nat) (ns : List PNode) (i j : Nat)
    (h : preserveOf ns j = true) : preserveOf (markLoop fuel ns i) j = true := by
  induction fuel generalizing ns i with
  | zero => exact h
  | succ fuel ih =>
    unfold markLoop
    cases hi : ns[i]? with
    | none => exact h
    | some n =>
      simp only []
      by_cases hpres : n.preserve_branch = true
      · simp [hpres, h]
      · rw [if_neg hpres]
        have hset : preserveOf (ns.set i ⟨n.parent, true⟩) j = true := by
          rw [preserveOf_set_true]
          by_cases hij : j = i ∧ i < ns.length
          · simp [hij]
          · simp [hij, h]
        cases hpar : n.parent with
        | none => rw [hpar] at hset; exact hset
        | some p =>
          rw [hpar] at hset
          simp only []
          exact ih _ _ hset

theorem parentOf_eq {ns : List PNode} {i : Nat} {n : PNode}
    (hi : ns[i]? = some n) : parentOf ns i = n.parent := by
  unfold parentOf; rw [hi]

theorem preserveOf_eq {ns : List PNode} {i : Nat} {n : PNode}
    (hi : ns[i]? = some n) : preserveOf ns i = n.preserve_branch := by
  unfold preserveOf; rw [hi]

theorem ancestorOf_congr {ns ns2 : List PNode}
    (hpar : ∀ a, parentOf ns2 a = parentOf ns a) {x y : Nat}
    (h : AncestorOf ns2 x y) : AncestorOf ns x y := by
  induction h with
  | refl => exact AncestorOf.refl _
  | up i p k hp _ ih => exact AncestorOf.up i p k ((hpar i) ▸ hp) ih

theorem ancestorOf_trans {ns : List PNode} {i j k : Nat}
    (h1 : AncestorOf ns i j) (h2 : AncestorOf ns j k) : AncestorOf ns i k := by
  induction h1 with
  | refl => exact h2
  | up a p b hp _ ih => exact AncestorOf.up a p k hp (ih h2)

/-- Parents are never modified by the set performed in the marking loop,
since the replacement node carries the same parent. -/
theorem parentOf_set_same (ns : List PNode) (i : Nat) (n : PNode)
    (hi : ns[i]? = some n) (a : Nat) :
    parentOf (ns.set i ⟨n.parent, true⟩) a = parentOf ns a := by
  rw [parentOf_set_true]
  by_cases hai : a = i
  · subst hai
    simp [lt_length_of_getElem?_pnode hi, parentOf_eq hi]
  · simp [hai]

/-- Any flag the marking loop sets is at the start node or one of its
ancestors. -/
theorem markLoop_marks_subset (fuel : Nat) (ns : List PNode) (i j : Nat)
    (h : preserveOf (markLoop fuel ns i) j = true) :
    preserveOf ns j = true ∨ AncestorOf ns i j := by
  induction fuel generalizing ns i with
  | zero => exact Or.inl h
  | succ fuel ih =>
    unfold markLoop at h
    cases hi : ns[i]? with
    | none => rw [hi] at h; exact Or.inl h
    | some n =>
      rw [hi] at h
      simp only [] at h
      by_cases hpres : n.preserve_branch = true
      · rw [if_pos hpres] at h; exact Or.inl h
      · rw [if_neg hpres] at h
        cases hpar : n.parent with
        | none =>
          rw [hpar] at h
          simp only [] at h
          rw [preserveOf_set_true] at h
          by_cases hji : j = i ∧ i < ns.length
          · refine Or.inr ?_
            rw [hji.1]
            exact AncestorOf.refl i
          · rw [if_neg hji] at h; exact Or.inl h
        | some p =>
          rw [hpar] at h
          simp only [] at h
          rcases ih _ _ h with h2 | h2
          · rw [preserveOf_set_true] at h2
            by_cases hji : j = i ∧ i < ns.length
            · refine Or.inr ?_
              rw [hji.1]
              exact AncestorOf.refl i
            · rw [if_neg hji] at h2; exact Or.inl h2
          · have hpns : parentOf ns i = some p := by rw [parentOf_eq hi, hpar]
            have hsp : ∀ a, parentOf (ns.set i ⟨some p, true⟩) a = parentOf ns a := by
              intro a
              have := parentOf_set_same ns i n hi a
              rw [hpar] at this
              exact this
            exact Or.inr (AncestorOf.up i p j hpns (ancestorOf_congr hsp h2))

/-- Core lemma: under well-formedness and the invariant for the starting
store, the marking loop sets the flag of the start node and of every
ancestor, even with its early break at an already-set flag.  The store `ns`
is the starting store `ns0` with extra flags set only above the current
index. -/
theorem markLoop_marks_chain (fuel : Nat) (ns0 : List PNode) :
    ∀ (ns : List PNode) (i : Nat), i + 1 ≤ fuel → i < ns0.length →
    ns.length = ns0.length →
    wfStore ns0 = true → preserveInv ns0 = true →
    (∀ a, parentOf ns a = parentOf ns0 a) →
    (∀ a, preserveOf ns0 a = true → preserveOf ns a = true) →
    (∀ a, a ≤ i → preserveOf ns a = preserveOf ns0 a) →
    ∀ k, AncestorOf ns0 i k → preserveOf (markLoop fuel ns i) k = true := by
  induction fuel with
  | zero => intro ns i hfuel; omega
  | succ fuel ih =>
    intro ns i hfuel hilen hlen hwf hinv hpareq hmono hlow k hk
    unfold markLoop
    cases hi : ns[i]? with
    | none =>
      exfalso
      have : ns.length ≤ i := List.getElem?_eq_none_iff.mp hi
      omega
    | some n =>
      simp only []
      by_cases hpres : n.preserve_branch = true
      · rw [if_pos hpres]
        have hnsi : preserveOf ns i = true := by rw [preserveOf_eq hi]; exact hpres
        have hns0i : preserveOf ns0 i = true := (hlow i (Nat.le_refl i)) ▸ hnsi
        exact hmono k (preserveInv_chain hinv hk hns0i)
      · rw [if_neg hpres]
        have hset : ∀ a, preserveOf (ns.set i ⟨n.parent, true⟩) a =
            if a = i ∧ i < ns.length then true else preserveOf ns a :=
          fun a => preserveOf_set_true ns i a n.parent
        have hsetpar : ∀ a, parentOf (ns.set i ⟨n.parent, true⟩) a = parentOf ns a :=
          parentOf_set_same ns i n hi
        cases hpar : n.parent with
        | none =>
          rw [hpar] at hset hsetpar
          simp only []
          cases hk with
          | refl =>
            rw [hset]
            have : i < ns.length := by omega
            simp [this]
          | up _ p _ hp hanc =>
            exfalso
            have hcon : parentOf ns i = some p := (hpareq i) ▸ hp
            rw [parentOf_eq hi, hpar] at hcon
            cases hcon
        | some p =>
          rw [hpar] at hset hsetpar
          simp only []
          have hpns0 : parentOf ns0 i = some p := by
            rw [← hpareq i, parentOf_eq hi, hpar]
          have hpi : p < i := wfStore_lt hwf hpns0
          cases hk with
          | refl =>
            apply markLoop_mono
            rw [hset]
            have : i < ns.length := by omega
            simp [this]
          | up _ p2 _ hp2 hanc =>
            have hp2p : p2 = p := by
              rw [hpns0] at hp2
              cases hp2
              rfl
            rw [hp2p] at hanc
            apply ih (ns.set i ⟨some p, true⟩) p (by omega) (by omega) (by simpa using hlen)
              hwf hinv
            · intro a; rw [hsetpar, hpareq]
            · intro a ha
              rw [hset]
              by_cases hai : a = i ∧ i < ns.length
              · simp [hai]
              · rw [if_neg hai]; exact hmono a ha
            · intro a ha
              rw [hset, if_neg (by omega), hlow a (by omega)]
            · exact hanc

/-- Pointwise form of the invariant suffices. -/
theorem preserveInv_of_pointwise (ns : List PNode)
    (h : ∀ j p, preserveOf ns j = true → parentOf ns j = some p →
      preserveOf ns p = true) : preserveInv ns = true := by
  apply List.all_eq_true.mpr
  intro j hj
  cases hnj : ns[j]? with
  | none => rfl
  | some n =>
    simp only []
    by_cases hpres : n.preserve_branch = true
    · rw [if_pos hpres]
      cases hpar : n.parent with
      | none => rfl
      | some p =>
        simp only []
        exact h j p (by rw [preserveOf_eq hnj]; exact hpres)
          (by rw [parentOf_eq hnj, hpar])
    · rw [if_neg hpres]

/-- C7: the preserve flag is monotone: `mark_preserve_branch` (the only
writer of the flag, starting from an all-false store) marks the node and
every ancestor up to the root, never clears a flag, and preserves the
invariant that no node is preserved while its parent is not. -/
theorem preserve_flag_monotone (ns : List PNode) (i : Nat)
    (hwf : wfStore ns = true) (hinv : preserveInv ns = true) (hilen : i < ns.length) :
    (∀ k, AncestorOf ns i k → preserveOf (mark_preserve_branch ns i) k = true) ∧
    preserveInv (mark_preserve_branch ns i) = true ∧
    (∀ j, preserveOf ns j = true → preserveOf (mark_preserve_branch ns i) j = true) := by
  have hmarks : ∀ k, AncestorOf ns i k →
      preserveOf (mark_preserve_branch ns i) k = true := by
    intro k hk
    exact markLoop_marks_chain (i + 1) ns ns i (Nat.le_refl _) hilen rfl hwf hinv
      (fun a => rfl) (fun a h => h) (fun a _ => rfl) k hk
  refine ⟨hmarks, ?_, fun j h => markLoop_mono _ _ _ _ h⟩
  apply preserveInv_of_pointwise
  intro j p hpj hparj
  have hparj0 : parentOf ns j = some p := by
    rw [← markLoop_parentOf (i + 1) ns i j]
    exact hparj
  rcases markLoop_marks_subset (i + 1) ns i j hpj with hold | hanc
  · exact markLoop_mono _ _ _ _ (preserveInv_parent hinv hold hparj0)
  · exact hmarks p (ancestorOf_trans hanc (AncestorOf.up j p p hparj0 (AncestorOf.refl p)))

/-- A three-node chain used to witness the marking theorem on concrete
data. -/
def demoPStore : List PNode :=
  [⟨none, false⟩, ⟨some 0, false⟩, ⟨some 1, false⟩]

/-- Witness for `preserve_flag_monotone` at a concrete store. -/
theorem preserve_flag_monotone_witness :
    wfStore demoPStore = true ∧ preserveInv demoPStore = true ∧ 2 < demoPStore.length ∧
    ((∀ k, AncestorOf demoPStore 2 k →
        preserveOf (mark_preserve_branch demoPStore 2) k = true) ∧
      preserveInv (mark_preserve_branch demoPStore 2) = true ∧
      (∀ j, preserveOf demoPStore j = true →
        preserveOf (mark_preserve_branch demoPStore 2) j = true)) :=
  ⟨by decide, by decide, by decide,
    preserve_flag_monotone demoPStore 2 (by decide) (by decide) (by decide)⟩

theorem contains_mem_str {α : Type} [BEq α] [LawfulBEq α] {l : List α} {a : α} :
    l.contains a = true ↔ a ∈ l := by
  simp [List.contains, List.elem_iff]

/-! ## Dependency graph (`models.py`, `BuildingBlockRegister.__init__`)

The register builds a `networkx.DiGraph` over local and imported block
identifiers: for every block entry with identifier `id` and dependency
list `ds` it runs `add_node(id)` and `add_edges_from((d, id) for d in ds)`.
`DepGraph` keeps nodes and edges in insertion order with the same
idempotent insertion behaviour as `DiGraph`. -/

structure DepGraph where
  nodes : List String
  edges : List (String × String)

def addNode (g : DepGraph) (n : String) : DepGraph :=
  if g.nodes.contains n then g else ⟨g.nodes ++ [n], g.edges⟩

def addEdge (g : DepGraph) (e : String × String) : DepGraph :=
  let g2 := addNode (addNode g e.1) e.2
  if g2.edges.contains e then g2 else ⟨g2.nodes, g2.edges ++ [e]⟩

def addEdges (g : DepGraph) (es : List (String × String)) : DepGraph :=
  es.foldl addEdge g

/-- One register entry: `add_node` then `add_edges_from` with edges
directed dependency → dependent. -/
def addBlockEntry (g : DepGraph) (entry : String × List String) : DepGraph :=
  addEdges (addNode g entry.1) (entry.2.map (fun d => (d, entry.1)))

/-- The graph-building loops of `BuildingBlockRegister.__init__`: first
imported blocks with their declared `dependsOn`, then local blocks with
their merged dependency lists. -/
def buildDepGraph (importedBlocks localBlocks : List (String × List String)) : DepGraph :=
  localBlocks.foldl addBlockEntry (importedBlocks.foldl addBlockEntry ⟨[], []⟩)

theorem addNode_nodes_mem (g : DepGraph) (n x : String) :
    x ∈ (addNode g n).nodes ↔ x ∈ g.nodes ∨ x = n := by
  unfold addNode
  by_cases hc : g.nodes.contains n
  · rw [if_pos hc]
    constructor
    · exact Or.inl
    · rintro (h | rfl)
      · exact h
      · exact contains_mem_str.mp hc
  · rw [if_neg hc]
    simp

theorem addNode_edges (g : DepGraph) (n : String) : (addNode g n).edges = g.edges := by
  unfold addNode
  by_cases hc : g.nodes.contains n
  · rw [if_pos hc]
  · rw [if_neg hc]

theorem addNode_nodup (g : DepGraph) (n : String) (h : g.nodes.Nodup) :
    (addNode g n).nodes.Nodup := by
  unfold addNode
  by_cases hc : g.nodes.contains n
  · rw [if_pos hc]; exact h
  · rw [if_neg hc]
    simp only []
    rw [List.nodup_append]
    refine ⟨h, List.nodup_singleton n, ?_⟩
    intro a ha hb
    rw [List.mem_singleton] at hb
    subst hb
    exact hc (contains_mem_str.mpr ha)

theorem addEdge_nodes_mem (g : DepGraph) (e : String × String) (x : String) :
    x ∈ (addEdge g e).nodes ↔ x ∈ g.nodes ∨ x = e.1 ∨ x = e.2 := by
  unfold addEdge
  by_cases hc : (addNode (addNode g e.1) e.2).edges.contains e
  · rw [if_pos hc]
    rw [addNode_nodes_mem, addNode_nodes_mem]
    tauto
  · rw [if_neg hc]
    simp only []
    rw [addNode_nodes_mem, addNode_nodes_mem]
    tauto

theorem addEdge_edges_mem (g : DepGraph) (e e2 : String × String) :
    e2 ∈ (addEdge g e).edges ↔ e2 ∈ g.edges ∨ e2 = e := by
  unfold addEdge
  by_cases hc : (addNode (addNode g e.1) e.2).edges.contains e
  · rw [if_pos hc]
    rw [addNode_edges, addNode_edges] at hc ⊢
    constructor
    · exact Or.inl
    · rintro (h | rfl)
      · exact h
      · exact contains_mem_str.mp hc
  · rw [if_neg hc]
    simp only []
    rw [addNode_edges, addNode_edges]
    simp

theorem addEdge_nodup (g : DepGraph) (e : String × String) (h : g.nodes.Nodup) :
    (addEdge g e).nodes.Nodup := by
  unfold addEdge
  have h2 := addNode_nodup _ e.2 (addNode_nodup g e.1 h)
  by_cases hc : (addNode (addNode g e.1) e.2).edges.contains e
  · rw [if_pos hc]; exact h2
  · rw [if_neg hc]; exact h2

/-- Every edge end is registered as a node (`add_edge` adds both). -/
theorem addEdge_ends (g : DepGraph) (e : String × String)
    (h : ∀ e2 ∈ g.edges, e2.1 ∈ g.nodes ∧ e2.2 ∈ g.nodes) :
    ∀ e2 ∈ (addEdge g e).edges, e2.1 ∈ (addEdge g e).nodes ∧ e2.2 ∈ (addEdge g e).nodes := by
  intro e2 he2
  rw [addEdge_edges_mem] at he2
  rw [addEdge_nodes_mem, addEdge_nodes_mem]
  rcases he2 with h2 | rfl
  · exact ⟨Or.inl (h e2 h2).1, Or.inl (h e2 h2).2⟩
  · exact ⟨Or.inr (Or.inl rfl), Or.inr (Or.inr rfl)⟩

theorem addEdges_nodes_sub (g : DepGraph) (es : List (String × String)) (x : String)
    (h : x ∈ g.nodes) : x ∈ (addEdges g es).nodes := by
  induction es generalizing g with
  | nil => exact h
  | cons e rest ih =>
    exact ih (addEdge g e) ((addEdge_nodes_mem g e x).mpr (Or.inl h))

theorem addEdges_edges_mem (g : DepGraph) (es : List (String × String)) (e2 : String × String) :
    e2 ∈ (addEdges g es).edges ↔ e2 ∈ g.edges ∨ e2 ∈ es := by
  induction es generalizing g with
  | nil => simp [addEdges]
  | cons e rest ih =>
    show e2 ∈ (addEdges (addEdge g e) rest).edges ↔ _
    rw [ih, addEdge_edges_mem]
    simp only [List.mem_cons]
    tauto

theorem addEdges_nodup (g : DepGraph) (es : List (String × String)) (h : g.nodes.Nodup) :
    (addEdges g es).nodes.Nodup := by
  induction es generalizing g with
  | nil => exact h
  | cons e rest ih => exact ih _ (addEdge_nodup g e h)

theorem addEdges_ends (g : DepGraph) (es : List (String × String))
    (h : ∀ e2 ∈ g.edges, e2.1 ∈ g.nodes ∧ e2.2 ∈ g.nodes) :
    ∀ e2 ∈ (addEdges g es).edges,
      e2.1 ∈ (addEdges g es).nodes ∧ e2.2 ∈ (addEdges g es).nodes := by
  induction es generalizing g with
  | nil => exact h
  | cons e rest ih => exact ih (addEdge g e) (addEdge_ends g e h)

theorem addBlockEntry_nodes_mem (g : DepGraph) (entry : String × List String) (x : String)
    (h : x ∈ g.nodes ∨ x = entry.1) : x ∈ (addBlockEntry g entry).nodes := by
  unfold addBlockEntry
  exact addEdges_nodes_sub _ _ x ((addNode_nodes_mem g entry.1 x).mpr h)

theorem addBlockEntry_edges_mem (g : DepGraph) (entry : String × List String)
    (e : String × String) :
    e ∈ (addBlockEntry g entry).edges ↔ e ∈ g.edges ∨ (e.2 = entry.1 ∧ e.1 ∈ entry.2) := by
  unfold addBlockEntry
  rw [addEdges_edges_mem, addNode_edges]
  constructor
  · rintro (h | h)
    · exact Or.inl h
    · rcases List.mem_map.mp h with ⟨d, hd, rfl⟩
      exact Or.inr ⟨rfl, hd⟩
  · rintro (h | ⟨h1, h2⟩)
    · exact Or.inl h
    · refine Or.inr (List.mem_map.mpr ⟨e.1, h2, ?_⟩)
      rw [← h1]

theorem addBlockEntry_nodup (g : DepGraph) (entry : String × List String)
    (h : g.nodes.Nodup) : (addBlockEntry g entry).nodes.Nodup :=
  addEdges_nodup _ _ (addNode_nodup g entry.1 h)

theorem addBlockEntry_ends (g : DepGraph) (entry : String × List String)
    (h : ∀ e ∈ g.edges, e.1 ∈ g.nodes ∧ e.2 ∈ g.nodes) :
    ∀ e ∈ (addBlockEntry g entry).edges,
      e.1 ∈ (addBlockEntry g entry).nodes ∧ e.2 ∈ (addBlockEntry g entry).nodes := by
  unfold addBlockEntry
  apply addEdges_ends
  intro e he
  rw [addNode_edges] at he
  rw [addNode_nodes_mem, addNode_nodes_mem]
  exact ⟨Or.inl (h e he).1, Or.inl (h e he).2⟩

theorem foldl_addBlockEntry_nodup (entries : List (String × List String)) (g : DepGraph)
    (h : g.nodes.Nodup) : (entries.foldl addBlockEntry g).nodes.Nodup := by
  induction entries generalizing g with
  | nil => exact h
  | cons e rest ih => exact ih _ (addBlockEntry_nodup g e h)

theorem foldl_addBlockEntry_ends (entries : List (String × List String)) (g : DepGraph)
    (h : ∀ e ∈ g.edges, e.1 ∈ g.nodes ∧ e.2 ∈ g.nodes) :
    ∀ e ∈ (entries.foldl addBlockEntry g).edges,
      e.1 ∈ (entries.foldl addBlockEntry g).nodes ∧
      e.2 ∈ (entries.foldl addBlockEntry g).nodes := by
  induction entries generalizing g with
  | nil => exact h
  | cons e rest ih => exact ih _ (addBlockEntry_ends g e h)

theorem foldl_addBlockEntry_nodes_sub (entries : List (String × List String)) (g : DepGraph)
    (x : String) (h : x ∈ g.nodes) : x ∈ (entries.foldl addBlockEntry g).nodes := by
  induction entries generalizing g with
  | nil => exact h
  | cons e rest ih => exact ih _ (addBlockEntry_nodes_mem g e x (Or.inl h))

theorem foldl_addBlockEntry_nodes_ids (entries : List (String × List String)) (g : DepGraph)
    (id2 : String) (h : id2 ∈ entries.map (fun e => e.1)) :
    id2 ∈ (entries.foldl addBlockEntry g).nodes := by
  induction entries generalizing g with
  | nil => cases h
  | cons e rest ih =>
    rcases List.mem_cons.mp h with h1 | h2
    · exact foldl_addBlockEntry_nodes_sub rest _ _
        (addBlockEntry_nodes_mem g e _ (Or.inr h1))
    · exact ih _ h2

/-- Origin of every edge: some processed entry declares it. -/
theorem foldl_addBlockEntry_edges_origin (entries : List (String × List String)) (g : DepGraph)
    (e : String × String) (h : e ∈ (entries.foldl addBlockEntry g).edges) :
    e ∈ g.edges ∨ ∃ entry ∈ entries, e.2 = entry.1 ∧ e.1 ∈ entry.2 := by
  induction entries generalizing g with
  | nil => exact Or.inl h
  | cons en rest ih =>
    rcases ih _ h with h1 | ⟨entry, hmem, hprop⟩
    · rw [addBlockEntry_edges_mem] at h1
      rcases h1 with h1 | h1
      · exact Or.inl h1
      · exact Or.inr ⟨en, List.mem_cons_self _ _, h1⟩
    · exact Or.inr ⟨entry, List.mem_cons_of_mem _ hmem, hprop⟩

theorem buildDepGraph_nodup (importedBlocks localBlocks : List (String × List String)) :
    (buildDepGraph importedBlocks localBlocks).nodes.Nodup :=
  foldl_addBlockEntry_nodup _ _ (foldl_addBlockEntry_nodup _ _ List.nodup_nil)

theorem buildDepGraph_ends (importedBlocks localBlocks : List (String × List String)) :
    ∀ e ∈ (buildDepGraph importedBlocks localBlocks).edges,
      e.1 ∈ (buildDepGraph importedBlocks localBlocks).nodes ∧
      e.2 ∈ (buildDepGraph importedBlocks localBlocks).nodes := by
  apply foldl_addBlockEntry_ends
  apply foldl_addBlockEntry_ends
  intro e he
  cases he

theorem buildDepGraph_edges_origin (importedBlocks localBlocks : List (String × List String))
    (e : String × String) (h : e ∈ (buildDepGraph importedBlocks localBlocks).edges) :
    ∃ entry ∈ importedBlocks ++ localBlocks, e.2 = entry.1 ∧ e.1 ∈ entry.2 := by
  rcases foldl_addBlockEntry_edges_origin _ _ _ h with h1 | ⟨entry, hmem, hprop⟩
  · rcases foldl_addBlockEntry_edges_origin _ _ _ h1 with h2 | ⟨entry, hmem, hprop⟩
    · cases h2
    · exact ⟨entry, List.mem_append_left _ hmem, hprop⟩
  · exact ⟨entry, List.mem_append_right _ hmem, hprop⟩

/-! ## Topological sort (`nx.topological_sort`, modelled by Kahn) -/

/-- A node has no incoming edge from a still-remaining node. -/
def indegZero (edges : List (String × String)) (rem : List String) (n : String) : Bool :=
  edges.all fun e => !(e.2 == n && rem.contains e.1)

def kahnAux (edges : List (String × String)) :
    Nat → List String → List String → Option (List String)
  | 0, rem, acc => if rem.isEmpty then some acc.reverse else none
  | fuel + 1, rem, acc =>
    if rem.isEmpty then some acc.reverse
    else
      match rem.find? (indegZero edges rem) with
      | none => none
      | some n => kahnAux edges fuel (rem.erase n) (n :: acc)

/-- Modelled from the documented contract of `networkx.topological_sort`:
emit nodes so that every edge goes from an earlier to a later node. -/
def topological_sort (g : DepGraph) : Option (List String) :=
  kahnAux g.edges g.nodes.length g.nodes []

theorem kahnAux_spec (edges : List (String × String)) (fuel : Nat) :
    ∀ (rem acc L : List String),
    kahnAux edges fuel rem acc = some L →
    (∀ e ∈ edges, e.1 ∈ rem ∨ e.1 ∈ acc) →
    (∀ e ∈ edges, e.2 ∈ acc → List.Sublist [e.1, e.2] acc.reverse) →
    (rem ++ acc).Nodup →
    (∀ x, x ∈ acc → x ∈ L) ∧ (∀ x, x ∈ rem → x ∈ L) ∧
      (∀ e ∈ edges, e.2 ∈ L → List.Sublist [e.1, e.2] L) ∧ L.Nodup := by
  induction fuel with
  | zero =>
    intro rem acc L h h1 h2 hnd
    unfold kahnAux at h
    by_cases hrem : rem.isEmpty
    · rw [if_pos hrem] at h
      cases h
      have hremnil : rem = [] := List.isEmpty_iff.mp hrem
      subst hremnil
      rw [List.nil_append] at hnd
      refine ⟨fun x hx => List.mem_reverse.mpr hx, by simp, ?_, List.nodup_reverse.mpr hnd⟩
      intro e he hL
      exact h2 e he (List.mem_reverse.mp hL)
    · rw [if_neg hrem] at h
      cases h
  | succ fuel ih =>
    intro rem acc L h h1 h2 hnd
    unfold kahnAux at h
    by_cases hrem : rem.isEmpty
    · rw [if_pos hrem] at h
      cases h
      have hremnil : rem = [] := List.isEmpty_iff.mp hrem
      subst hremnil
      rw [List.nil_append] at hnd
      refine ⟨fun x hx => List.mem_reverse.mpr hx, by simp, ?_, List.nodup_reverse.mpr hnd⟩
      intro e he hL
      exact h2 e he (List.mem_reverse.mp hL)
    · rw [if_neg hrem] at h
      cases hfind : rem.find? (indegZero edges rem) with
      | none => rw [hfind] at h; cases h
      | some n =>
        rw [hfind] at h
        have hn_mem : n ∈ rem := List.mem_of_find?_eq_some hfind
        have hn_pred : indegZero edges rem n = true := List.find?_some hfind
        have h1n : ∀ e ∈ edges, e.1 ∈ rem.erase n ∨ e.1 ∈ n :: acc := by
          intro e he
          rcases h1 e he with hr | ha
          · by_cases hen : e.1 = n
            · exact Or.inr (hen ▸ List.mem_cons_self n acc)
            · exact Or.inl ((List.mem_erase_of_ne hen).mpr hr)
          · exact Or.inr (List.mem_cons_of_mem n ha)
        have h2n : ∀ e ∈ edges, e.2 ∈ n :: acc →
            List.Sublist [e.1, e.2] (n :: acc).reverse := by
          intro e he he2
          rw [List.reverse_cons]
          rcases List.mem_cons.mp he2 with he2n | he2a
          · have hnotin : ¬ e.1 ∈ rem := by
              have := List.all_eq_true.mp hn_pred e he
              rw [he2n] at this
              simp only [beq_self_eq_true, Bool.true_and, Bool.not_eq_eq_eq_not,
                Bool.not_true] at this
              intro hcon
              rw [contains_mem_str.mpr hcon] at this
              cases this
            have he1acc : e.1 ∈ acc := by
              rcases h1 e he with hr | ha
              · exact absurd hr hnotin
              · exact ha
            have hsingle : List.Sublist [e.1] acc.reverse :=
              List.singleton_sublist.mpr (List.mem_reverse.mpr he1acc)
            have : List.Sublist ([e.1] ++ [e.2]) (acc.reverse ++ [n]) := by
              apply List.Sublist.append hsingle
              rw [he2n]
            exact this
          · have := h2 e he he2a
            exact this.trans (List.sublist_append_left acc.reverse [n])
        have hndn : (rem.erase n ++ n :: acc).Nodup := by
          have hperm : List.Perm (rem ++ acc) (rem.erase n ++ n :: acc) := by
            have h1p : List.Perm rem (n :: rem.erase n) := List.perm_cons_erase hn_mem
            have h2p : List.Perm (rem ++ acc) ((n :: rem.erase n) ++ acc) :=
              h1p.append_right acc
            have h3p : (n :: rem.erase n) ++ acc = n :: (rem.erase n ++ acc) := rfl
            rw [h3p] at h2p
            exact h2p.trans List.perm_middle.symm
          exact hperm.nodup hnd
        obtain ⟨ha, hr, hs, hnodup⟩ := ih (rem.erase n) (n :: acc) L h h1n h2n hndn
        refine ⟨fun x hx => ha x (List.mem_cons_of_mem n hx), ?_, hs, hnodup⟩
        intro x hx
        by_cases hxn : x = n
        · exact ha x (hxn ▸ List.mem_cons_self n acc)
        · exact hr x ((List.mem_erase_of_ne hxn).mpr hx)

/-- Topological-order specification: on success, every node appears and
every edge is realised left-to-right in the output, which has no
duplicates. -/
theorem topological_sort_spec (g : DepGraph) (L : List String)
    (h : topological_sort g = some L)
    (hends : ∀ e ∈ g.edges, e.1 ∈ g.nodes ∧ e.2 ∈ g.nodes)
    (hnd : g.nodes.Nodup) :
    (∀ x, x ∈ g.nodes → x ∈ L) ∧
      (∀ e ∈ g.edges, List.Sublist [e.1, e.2] L) ∧ L.Nodup := by
  obtain ⟨ha, hr, hs, hnodup⟩ := kahnAux_spec g.edges g.nodes.length g.nodes [] L h
    (fun e he => Or.inl (hends e he).1) (by simp) (by simpa using hnd)
  exact ⟨hr, fun e he => hs e he (hr e.2 (hends e he).2), hnodup⟩

/-! ## Simple cycles (`nx.simple_cycles`) and their rendering

`models.py` renders each cycle `c` (a list of nodes in edge order) as
`' -> '.join(reversed(c)) + ' -> ' + c[-1]` and joins the renders into the
`BuildingBlockError` message.  The enumeration below is modelled from the
documented contract of `networkx.simple_cycles`: every simple cycle is
produced exactly once, as its list of nodes in edge order (the rotation at
which a cycle is emitted is unspecified upstream; here each cycle starts at
its latest-inserted node). -/

def simpleCyclesAux (edges : List (String × String)) (allowed : List String)
    (start : String) : Nat → String → List String → List (List String)
  | 0, _, _ => []
  | fuel + 1, cur, path =>
    (edges.filter (fun e => e.1 == cur)).flatMap fun e =>
      if e.2 == start then [path.reverse]
      else if allowed.contains e.2 && !(path.contains e.2) then
        simpleCyclesAux edges allowed start fuel e.2 (e.2 :: path)
      else []

def simple_cycles (g : DepGraph) : List (List String) :=
  (List.range g.nodes.length).flatMap fun i =>
    match g.nodes[i]? with
    | none => []
    | some s => simpleCyclesAux g.edges (g.nodes.take (i + 1)) s (g.nodes.length + 1) s [s]

/-- The identifier path printed for one cycle:
`' -> '.join(reversed(c)) + ' -> ' + c[-1]` lists these identifiers. -/
def cyclePath (c : List String) : List String :=
  c.reverse ++ [c.getLastD ""]

def renderCycle (c : List String) : String :=
  String.intercalate " -> " (cyclePath c)

/-- Every rendered cycle path starts and ends at the same identifier. -/
theorem cyclePath_closed (c : List String) (h : c ≠ []) :
    (cyclePath c).head? = some (c.getLastD "") ∧
      (cyclePath c).getLast? = some (c.getLastD "") := by
  constructor
  · unfold cyclePath
    rw [List.head?_append_of_ne_nil _ (by simpa using h)]
    rw [List.head?_reverse]
    rw [List.getLastD_eq_getLast?]
    cases hc : c.getLast? with
    | none => exact absurd (List.getLast?_eq_none_iff.mp hc) h
    | some x => rfl
  · unfold cyclePath
    rw [List.getLast?_concat]

/-- A chain of edges `cur → x₁ → ... → xₘ → target` through `rest`. -/
def chainOk (edges : List (String × String)) : String → List String → String → Bool
  | cur, [], target => edges.contains (cur, target)
  | cur, w :: rest, target => edges.contains (cur, w) && chainOk edges w rest target

/-- A nonempty node list is a cycle: consecutive edges plus the closing
edge back to the head. -/
def cycleChain (edges : List (String × String)) : List String → Bool
  | [] => false
  | v :: vs => chainOk edges v vs v

theorem chainOk_append (edges : List (String × String)) (b t : String)
    (ys : List String) :
    ∀ (xs : List String) (a : String),
    chainOk edges a (xs ++ b :: ys) t = (chainOk edges a xs b && chainOk edges b ys t) := by
  intro xs
  induction xs with
  | nil => intro a; rfl
  | cons x xs' ih =>
    intro a
    show (edges.contains (a, x) && chainOk edges x (xs' ++ b :: ys) t) = _
    rw [ih x, show chainOk edges a (x :: xs') b =
      (edges.contains (a, x) && chainOk edges x xs' b) from rfl, Bool.and_assoc]

theorem chainOk_src (edges : List (String × String)) :
    ∀ (xs : List String) (a t : String), chainOk edges a xs t = true →
    ∀ x ∈ a :: xs, ∃ e ∈ edges, e.1 = x := by
  intro xs
  induction xs with
  | nil =>
    intro a t h x hx
    have hat : (a, t) ∈ edges := contains_mem_str.mp h
    rcases List.mem_singleton.mp hx with rfl
    exact ⟨(x, t), hat, rfl⟩
  | cons w xs' ih =>
    intro a t h x hx
    rw [show chainOk edges a (w :: xs') t =
      (edges.contains (a, w) && chainOk edges w xs' t) from rfl, Bool.and_eq_true] at h
    rcases List.mem_cons.mp hx with rfl | hx2
    · exact ⟨(x, w), contains_mem_str.mp h.1, rfl⟩
    · exact ih w t h.2 x hx2

theorem cycleChain_rotate (edges : List (String × String)) (pre post : List String)
    (m : String) (h : cycleChain edges (pre ++ m :: post) = true) :
    chainOk edges m (post ++ pre) m = true := by
  cases pre with
  | nil =>
    rw [List.append_nil]
    simpa [cycleChain] using h
  | cons v pre' =>
    have h2 : chainOk edges v (pre' ++ m :: post) v = true := by
      simpa [cycleChain] using h
    rw [chainOk_append edges m v post pre' v, Bool.and_eq_true] at h2
    rw [chainOk_append edges v m pre' post m, h2.1, h2.2]
    rfl

/-- Completeness of the cycle search from an intermediate state: if the
remaining nodes chain back to `start` within `allowed`, avoiding the
path, the full cycle is emitted. -/
theorem simpleCyclesAux_complete (edges : List (String × String)) (allowed : List String)
    (start : String) :
    ∀ (fuel : Nat) (cur : String) (path rest : List String),
    rest.length < fuel →
    start ∈ path →
    chainOk edges cur rest start = true →
    (∀ w ∈ rest, w ∈ allowed) →
    (∀ w ∈ rest, w ∉ path) →
    rest.Nodup →
    path.reverse ++ rest ∈ simpleCyclesAux edges allowed start fuel cur path := by
  intro fuel
  induction fuel with
  | zero =>
    intro cur path rest hlen
    exact absurd hlen (Nat.not_lt_zero _)
  | succ fuel ih =>
    intro cur path rest hlen hstart hchain hallowed hnotpath hnodup
    cases rest with
    | nil =>
      have hedge : (cur, start) ∈ edges := contains_mem_str.mp hchain
      rw [List.append_nil]
      show path.reverse ∈ (edges.filter (fun e => e.1 == cur)).flatMap _
      apply List.mem_flatMap.mpr
      refine ⟨(cur, start), List.mem_filter.mpr ⟨hedge, by simp⟩, ?_⟩
      simp
    | cons w rest' =>
      rw [show chainOk edges cur (w :: rest') start =
        (edges.contains (cur, w) && chainOk edges w rest' start) from rfl,
        Bool.and_eq_true] at hchain
      have hwpath : w ∉ path := hnotpath w (List.mem_cons_self w rest')
      have hwstart : (w == start) = false := by
        have hne : w ≠ start := fun hcon => hwpath (hcon ▸ hstart)
        simp [hne]
      have hcond : (allowed.contains w && !(path.contains w)) = true := by
        rw [Bool.and_eq_true]
        constructor
        · exact contains_mem_str.mpr (hallowed w (List.mem_cons_self w rest'))
        · cases hcp : path.contains w with
          | false => rfl
          | true => exact absurd (contains_mem_str.mp hcp) hwpath
      have hnd := List.nodup_cons.mp hnodup
      have h2 := ih w (w :: path) rest'
        (by simpa using Nat.lt_of_succ_lt_succ hlen)
        (List.mem_cons_of_mem w hstart)
        hchain.2
        (fun x hx => hallowed x (List.mem_cons_of_mem w hx))
        (fun x hx => by
          intro hcon
          rcases List.mem_cons.mp hcon with hxw | hxp
          · exact hnd.1 (hxw ▸ hx)
          · exact hnotpath x (List.mem_cons_of_mem w hx) hxp)
        hnd.2
      rw [List.reverse_cons, List.append_assoc] at h2
      show path.reverse ++ (w :: rest') ∈ (edges.filter (fun e => e.1 == cur)).flatMap _
      apply List.mem_flatMap.mpr
      refine ⟨(cur, w), List.mem_filter.mpr ⟨contains_mem_str.mp hchain.1, by simp⟩, ?_⟩
      simp only [hwstart, Bool.false_eq_true, if_false, hcond, if_true]
      exact h2

/-- In any list covering a nonempty collection `c`, there is a position
`i` whose prefix `take (i+1)` already covers `c`, with the element at `i`
in `c`. -/
theorem exists_max_prefix (l : List String) (c : List String) (hne : c ≠ [])
    (hsub : ∀ x ∈ c, x ∈ l) :
    ∃ i m, i < l.length ∧ l[i]? = some m ∧ m ∈ c ∧ ∀ x ∈ c, x ∈ l.take (i + 1) := by
  induction l using List.reverseRecOn with
  | nil =>
    obtain ⟨x, hx⟩ := List.exists_mem_of_ne_nil c hne
    exact absurd (hsub x hx) (List.not_mem_nil x)
  | append_singleton l' a ih =>
    by_cases ha : a ∈ c
    · refine ⟨l'.length, a, by simp, ?_, ha, ?_⟩
      · rw [List.getElem?_concat_length]
      · intro x hx
        rw [List.take_of_length_le (by simp)]
        exact hsub x hx
    · have hsub' : ∀ x ∈ c, x ∈ l' := by
        intro x hx
        rcases List.mem_append.mp (hsub x hx) with h | h
        · exact h
        · have hxa := List.mem_singleton.mp h
          rw [hxa] at hx
          exact absurd hx ha
      obtain ⟨i, m, hi, hget, hmc, htake⟩ := ih hsub'
      refine ⟨i, m, by simp only [List.length_append, List.length_singleton]; omega, ?_,
        hmc, ?_⟩
      · rw [List.getElem?_append, if_pos hi]
        exact hget
      · intro x hx
        rw [List.take_append_of_le_length (by omega)]
        exact htake x hx

/-- Completeness of the cycle enumeration: every simple cycle of the
graph is emitted, at the rotation rooted at its latest node. -/
theorem simple_cycles_complete (g : DepGraph) (c : List String)
    (hne : c ≠ []) (hcnd : c.Nodup)
    (hchain : cycleChain g.edges c = true)
    (hsub : ∀ x ∈ c, x ∈ g.nodes) :
    ∃ c', List.IsRotated c c' ∧ c' ∈ simple_cycles g := by
  obtain ⟨i, m, hi, hget, hmc, htake⟩ := exists_max_prefix g.nodes c hne hsub
  obtain ⟨pre, post, hdecomp⟩ := List.append_of_mem hmc
  have hperm : c.Perm (m :: (post ++ pre)) := by
    rw [hdecomp]
    exact List.perm_middle.trans (List.Perm.cons m List.perm_append_comm)
  have hnd2 := List.nodup_cons.mp (hperm.nodup hcnd)
  have hrest_sub_c : ∀ x ∈ post ++ pre, x ∈ c := fun x hx =>
    hperm.mem_iff.mpr (List.mem_cons_of_mem m hx)
  have hchain2 : chainOk g.edges m (post ++ pre) m = true :=
    cycleChain_rotate g.edges pre post m (hdecomp ▸ hchain)
  have hlen : (post ++ pre).length < g.nodes.length + 1 := by
    have hsp := (List.Nodup.subperm hnd2.2
      (fun x hx => hsub x (hrest_sub_c x hx))).length_le
    omega
  have hmem_aux := simpleCyclesAux_complete g.edges (g.nodes.take (i + 1)) m
    (g.nodes.length + 1) m [m] (post ++ pre) hlen (List.mem_singleton.mpr rfl) hchain2
    (fun w hw => htake w (hrest_sub_c w hw))
    (fun w hw => by
      intro hcon
      exact hnd2.1 (List.mem_singleton.mp hcon ▸ hw))
    hnd2.2
  refine ⟨m :: (post ++ pre), ⟨pre.length, ?_⟩, ?_⟩
  · rw [List.rotate_eq_drop_append_take (by rw [hdecomp]; simp), hdecomp,
      List.drop_left, List.take_left]
    rfl
  · show m :: (post ++ pre) ∈ (List.range g.nodes.length).flatMap _
    apply List.mem_flatMap.mpr
    refine ⟨i, List.mem_range.mpr hi, ?_⟩
    rw [hget]
    simpa using hmem_aux

/-! ## Local block scan (`BuildingBlockRegister.__init__`, lines 321-337)

One `ScanItem` per metadata file found by the sorted glob: `id` is the
identifier computed by `get_bblock_identifier` and `buildOk` records
whether the `BuildingBlock` constructor succeeds.  A duplicate identifier
raises before the `try` block, hence unconditionally; any other error is
re-raised only under `fail_on_error`, otherwise printed and the block
skipped. -/

structure ScanItem where
  id : String
  buildOk : Bool
deriving DecidableEq

inductive RegError where
  | duplicateId (dupId : String)
  | buildFailure (failedId : String)
  | missingImport (blockId ref : String)
  | danglingRef (blockId ref : String)
  | circular (cycles : List (List String))
deriving DecidableEq

def scanStep (fail_on_error : Bool) (acc : List String) (item : ScanItem) :
    Except RegError (List String) :=
  if acc.contains item.id then .error (.duplicateId item.id)
  else if item.buildOk then .ok (acc ++ [item.id])
  else if fail_on_error then .error (.buildFailure item.id)
  else .ok acc

def scanItems (fail_on_error : Bool) :
    List ScanItem → List String → Except RegError (List String)
  | [], acc => .ok acc
  | item :: rest, acc =>
    match scanStep fail_on_error acc item with
    | .error e => .error e
    | .ok acc2 => scanItems fail_on_error rest acc2

/-! ## Dependency resolution (`models.py`, `_resolve_bblock_deps`) -/

def lookupStr : List (String × String) → String → Option String
  | [], _ => none
  | (k, v) :: rest, key => if k == key then some v else lookupStr rest key

/-- Prefix test on strings, computed on the underlying character lists so
that concrete evaluations reduce. -/
def strStartsWith (s pre : String) : Bool :=
  pre.data.isPrefixOf s.data

/-- Drop of the first `n` characters of a string, on character lists. -/
def strDrop (s : String) (n : Nat) : String :=
  ⟨s.data.drop n⟩

def strIsEmpty (s : String) : Bool :=
  s.data.isEmpty

/-- `ogc.na.util.is_url`, restricted to the http(s) shapes the register
deals with. -/
def is_url (s : String) : Bool :=
  strStartsWith s "http://" || strStartsWith s "https://"

/-- Python `set.add` on an insertion-ordered model of a set. -/
def addUnique (l : List String) (x : String) : List String :=
  if l.contains x then l else l ++ [x]

structure RegView where
  localIds : List String
  importedIds : List String
  local_bblock_files : List (String × String)
  imported_bblock_files : List (String × String)
  existingFiles : List String

/-- The reference-classification loop of `_resolve_bblock_deps`.  Relative
references are resolved against their source document; in this flat model
(source documents and references are plain same-directory names) that
resolution is the identity. -/
def resolveRefsLoop (reg : RegView) (bblockId : String) :
    List String → List String → Except RegError (List String)
  | [], deps => .ok deps
  | ref :: rest, deps =>
    if strIsEmpty ref then resolveRefsLoop reg bblockId rest deps
    else if strStartsWith ref "bblocks://" then
      let bblock_ref := strDrop ref 10
      if bblock_ref == bblockId then resolveRefsLoop reg bblockId rest deps
      else if reg.localIds.contains bblock_ref || reg.importedIds.contains bblock_ref then
        resolveRefsLoop reg bblockId rest (addUnique deps bblock_ref)
      else .error (.missingImport bblockId bblock_ref)
    else
      match lookupStr reg.imported_bblock_files ref with
      | some owner => resolveRefsLoop reg bblockId rest (addUnique deps owner)
      | none =>
        match lookupStr reg.local_bblock_files ref with
        | some owner => resolveRefsLoop reg bblockId rest (addUnique deps owner)
        | none =>
          if !(is_url ref) then
            if !(reg.existingFiles.contains ref) then .error (.danglingRef bblockId ref)
            else
              match lookupStr reg.local_bblock_files ref with
              | some owner => resolveRefsLoop reg bblockId rest (addUnique deps owner)
              | none => resolveRefsLoop reg bblockId rest deps
          else resolveRefsLoop reg bblockId rest deps

/-- `_resolve_bblock_deps`: classify every reference, then
`dependencies.discard(bblock.identifier)`. -/
def resolve_bblock_deps (reg : RegView) (bblockId : String) (refs : List String) :
    Except RegError (List String) :=
  match resolveRefsLoop reg bblockId refs [] with
  | .error e => .error e
  | .ok deps => .ok (deps.filter (fun d => d != bblockId))

/-- Merging of declared `dependsOn` into the resolved set
(`found_deps.update(deps)` in `__init__`). -/
def merge_deps (found : List String) (declared : List String) : List String :=
  declared.foldl addUnique found

/-! ## Register construction pipeline -/

structure LocalBlockData where
  id : String
  buildOk : Bool
  declared : List String
  refs : List String

structure RegInput where
  localBlocks : List LocalBlockData
  importedBlocks : List (String × List String)
  local_bblock_files : List (String × String)
  imported_bblock_files : List (String × String)
  existingFiles : List String

def regView (inp : RegInput) (scanned : List String) : RegView :=
  ⟨scanned, inp.importedBlocks.map (fun e => e.1), inp.local_bblock_files,
    inp.imported_bblock_files, inp.existingFiles⟩

def registerScan (fail_on_error : Bool) (inp : RegInput) : Except RegError (List String) :=
  scanItems fail_on_error (inp.localBlocks.map fun b => (⟨b.id, b.buildOk⟩ : ScanItem)) []

def resolveAll (view : RegView) : List LocalBlockData →
    Except RegError (List (String × List String))
  | [] => .ok []
  | b :: rest =>
    match resolve_bblock_deps view b.id b.refs with
    | .error e => .error e
    | .ok found =>
      match resolveAll view rest with
      | .error e => .error e
      | .ok others => .ok ((b.id, merge_deps found b.declared) :: others)

def registerLocalDeps (fail_on_error : Bool) (inp : RegInput) :
    Except RegError (List (String × List String)) :=
  match registerScan fail_on_error inp with
  | .error e => .error e
  | .ok scanned =>
    resolveAll (regView inp scanned)
      (inp.localBlocks.filter fun b => b.buildOk && scanned.contains b.id)

/-- `BuildingBlockRegister.__init__` after the scan: build the dependency
graph, fail on cycles reporting all of them, topologically sort, and keep
the local blocks in sorted order. -/
def registerBuild (fail_on_error : Bool) (inp : RegInput) :
    Except RegError (List String) :=
  match registerScan fail_on_error inp with
  | .error e => .error e
  | .ok scanned =>
    match resolveAll (regView inp scanned)
        (inp.localBlocks.filter fun b => b.buildOk && scanned.contains b.id) with
    | .error e => .error e
    | .ok localDeps =>
      if (simple_cycles (buildDepGraph inp.importedBlocks localDeps)).isEmpty then
        match topological_sort (buildDepGraph inp.importedBlocks localDeps) with
        | some L => .ok (L.filter fun b => scanned.contains b)
        | none => .error (.circular [])
      else .error (.circular (simple_cycles (buildDepGraph inp.importedBlocks localDeps)))


/-! ## Claim C1: topological order of the register -/

/-- C1: for every input on which register construction succeeds, every edge
A→B of the dependency graph between local blocks is realised with A before
B in the resulting ordered map of blocks (whose key list has no
duplicates, so "before" is unambiguous). -/
theorem register_topological_order (fail_on_error : Bool) (inp : RegInput)
    (scanned : List String) (localDeps : List (String × List String)) (keys : List String)
    (hscan : registerScan fail_on_error inp = .ok scanned)
    (hdeps : registerLocalDeps fail_on_error inp = .ok localDeps)
    (hbuild : registerBuild fail_on_error inp = .ok keys)
    (a b : String)
    (hedge : (a, b) ∈ (buildDepGraph inp.importedBlocks localDeps).edges)
    (ha : a ∈ scanned) (hb : b ∈ scanned) :
    List.Sublist [a, b] keys ∧ keys.Nodup := by
  unfold registerLocalDeps at hdeps
  unfold registerBuild at hbuild
  rw [hscan] at hdeps hbuild
  simp only [] at hdeps hbuild
  rw [hdeps] at hbuild
  simp only [] at hbuild
  cases hcyc : (simple_cycles (buildDepGraph inp.importedBlocks localDeps)).isEmpty with
  | false =>
    rw [hcyc] at hbuild
    simp at hbuild
  | true =>
    rw [hcyc] at hbuild
    simp only [if_true] at hbuild
    cases htopo : topological_sort (buildDepGraph inp.importedBlocks localDeps) with
    | none =>
      rw [htopo] at hbuild
      simp at hbuild
    | some L =>
      rw [htopo] at hbuild
      simp only [Except.ok.injEq] at hbuild
      obtain ⟨hmem, hsub, hnodup⟩ := topological_sort_spec _ L htopo
        (buildDepGraph_ends _ _) (buildDepGraph_nodup _ _)
      have hab : List.Sublist [a, b] L := hsub (a, b) hedge
      have hfil := hab.filter (fun x => scanned.contains x)
      have hpa : (scanned.contains a) = true := contains_mem_str.mpr ha
      have hpb : (scanned.contains b) = true := contains_mem_str.mpr hb
      rw [show [a, b].filter (fun x => scanned.contains x) = [a, b] by
        rw [List.filter_cons, if_pos hpa, List.filter_cons, if_pos hpb,
          List.filter_nil]] at hfil
      rw [← hbuild]
      exact ⟨hfil, hnodup.filter _⟩

/-- Two blocks, `B` depending on `A`, to witness the ordering theorem. -/
def topoScenario : RegInput :=
  ⟨[⟨"A", true, [], []⟩, ⟨"B", true, ["A"], []⟩], [], [], [], []⟩

/-- Witness for `register_topological_order` at a concrete register. -/
theorem register_topological_order_witness :
    List.Sublist ["A", "B"] ["A", "B"] ∧ (["A", "B"] : List String).Nodup :=
  register_topological_order true topoScenario ["A", "B"] [("A", []), ("B", ["A"])]
    ["A", "B"] rfl rfl rfl "A" "B" (by decide) (by decide) (by decide)

/-! ## Claim C5: cycle detection and reporting -/

/-- Block `A` declares `dependsOn: [B]`; block `B` references
`bblocks://A` in its schema. -/
def cycleScenario : RegInput :=
  ⟨[⟨"A", true, ["B"], []⟩, ⟨"B", true, [], ["bblocks://A"]⟩], [], [], [], []⟩

/-- C5: whenever the scanned blocks' merged inferred and declared
dependency edges contain a cycle, register construction fails with the
circular-dependency error carrying the full `simple_cycles` list; every
simple cycle of the graph appears in that list (at the enumeration's
rotation -- the rotation emitted by `nx.simple_cycles` is unspecified
upstream); every rendered cycle path starts and ends at the same
identifier; and in the A/B scenario the single reported cycle is rendered
as the arrow-joined path `A -> B -> A`. -/
theorem circular_dependencies_reported :
    (∀ (fail_on_error : Bool) (inp : RegInput) (scanned : List String)
        (localDeps : List (String × List String)),
      registerScan fail_on_error inp = .ok scanned →
      registerLocalDeps fail_on_error inp = .ok localDeps →
      (∃ c : List String, c ≠ [] ∧ c.Nodup ∧
        cycleChain (buildDepGraph inp.importedBlocks localDeps).edges c = true) →
      registerBuild fail_on_error inp =
        .error (.circular (simple_cycles (buildDepGraph inp.importedBlocks localDeps)))) ∧
    (∀ (importedBlocks localDeps : List (String × List String)) (c : List String),
      c ≠ [] → c.Nodup →
      cycleChain (buildDepGraph importedBlocks localDeps).edges c = true →
      ∃ c', List.IsRotated c c' ∧
        c' ∈ simple_cycles (buildDepGraph importedBlocks localDeps)) ∧
    (∀ c : List String, c ≠ [] →
      (cyclePath c).head? = some (c.getLastD "") ∧
      (cyclePath c).getLast? = some (c.getLastD "")) ∧
    registerBuild true cycleScenario = .error (.circular [["B", "A"]]) ∧
    renderCycle ["B", "A"] = "A -> B -> A" := by
  refine ⟨?_, ?_, cyclePath_closed, rfl, rfl⟩
  · intro fail_on_error inp scanned localDeps hscan hdeps hex
    obtain ⟨c, hcne, hcnd, hchain⟩ := hex
    have hsubnodes : ∀ x ∈ c, x ∈ (buildDepGraph inp.importedBlocks localDeps).nodes := by
      cases c with
      | nil => exact absurd rfl hcne
      | cons v vs =>
        intro x hx
        obtain ⟨e, he, he1⟩ := chainOk_src _ vs v v (by simpa [cycleChain] using hchain) x hx
        exact he1 ▸ (buildDepGraph_ends _ _ e he).1
    obtain ⟨c', hrot, hcmem⟩ := simple_cycles_complete _ c hcne hcnd hchain hsubnodes
    unfold registerLocalDeps at hdeps
    unfold registerBuild
    rw [hscan] at hdeps ⊢
    simp only [] at hdeps ⊢
    rw [hdeps]
    simp only []
    have hne2 :
        (simple_cycles (buildDepGraph inp.importedBlocks localDeps)).isEmpty = false := by
      cases hemp : (simple_cycles (buildDepGraph inp.importedBlocks localDeps)).isEmpty with
      | false => rfl
      | true =>
        rw [List.isEmpty_iff.mp hemp] at hcmem
        cases hcmem
    rw [hne2]
    rfl
  · intro importedBlocks localDeps c hcne hcnd hchain
    have hsubnodes : ∀ x ∈ c, x ∈ (buildDepGraph importedBlocks localDeps).nodes := by
      cases c with
      | nil => exact absurd rfl hcne
      | cons v vs =>
        intro x hx
        obtain ⟨e, he, he1⟩ := chainOk_src _ vs v v (by simpa [cycleChain] using hchain) x hx
        exact he1 ▸ (buildDepGraph_ends _ _ e he).1
    exact simple_cycles_complete _ c hcne hcnd hchain hsubnodes

/-- Witness for `circular_dependencies_reported` at the A/B scenario:
the hypotheses hold concretely and the register fails reporting the
enumerated cycles, among which a rotation of the `B -> A -> B` cycle
appears. -/
theorem circular_dependencies_reported_witness :
    registerScan true cycleScenario = .ok ["A", "B"] ∧
    registerLocalDeps true cycleScenario = .ok [("A", ["B"]), ("B", ["A"])] ∧
    (["B", "A"] : List String) ≠ [] ∧ (["B", "A"] : List String).Nodup ∧
    cycleChain (buildDepGraph cycleScenario.importedBlocks
      [("A", ["B"]), ("B", ["A"])]).edges ["B", "A"] = true ∧
    registerBuild true cycleScenario = .error (.circular (simple_cycles
      (buildDepGraph cycleScenario.importedBlocks [("A", ["B"]), ("B", ["A"])]))) ∧
    (∃ c', List.IsRotated ["B", "A"] c' ∧ c' ∈ simple_cycles
      (buildDepGraph cycleScenario.importedBlocks [("A", ["B"]), ("B", ["A"])])) ∧
    ((cyclePath ["B", "A"]).head? = some ((["B", "A"] : List String).getLastD "") ∧
      (cyclePath ["B", "A"]).getLast? = some ((["B", "A"] : List String).getLastD "")) :=
  ⟨rfl, rfl, by decide, by decide, by decide,
    circular_dependencies_reported.1 true cycleScenario ["A", "B"]
      [("A", ["B"]), ("B", ["A"])] rfl rfl ⟨["B", "A"], by decide, by decide, by decide⟩,
    circular_dependencies_reported.2.1 cycleScenario.importedBlocks
      [("A", ["B"]), ("B", ["A"])] ["B", "A"] (by decide) (by decide) (by decide),
    circular_dependencies_reported.2.2.1 ["B", "A"] (by decide)⟩

/-! ## Claim C6: self-dependency handling -/

theorem resolve_bblock_deps_no_self (reg : RegView) (bblockId : String)
    (refs ds : List String) (h : resolve_bblock_deps reg bblockId refs = .ok ds) :
    bblockId ∉ ds := by
  unfold resolve_bblock_deps at h
  cases hloop : resolveRefsLoop reg bblockId refs [] with
  | error e => rw [hloop] at h; cases h
  | ok deps =>
    rw [hloop] at h
    simp only [Except.ok.injEq] at h
    intro hmem
    rw [← h] at hmem
    have := List.of_mem_filter hmem
    simp at this

theorem mem_addUnique {l : List String} {x y : String} (h : x ∈ addUnique l y) :
    x ∈ l ∨ x = y := by
  unfold addUnique at h
  by_cases hc : l.contains y
  · rw [if_pos hc] at h; exact Or.inl h
  · rw [if_neg hc] at h
    rcases List.mem_append.mp h with h1 | h1
    · exact Or.inl h1
    · exact Or.inr (List.mem_singleton.mp h1)

theorem mem_merge_deps {found declared : List String} {x : String}
    (h : x ∈ merge_deps found declared) : x ∈ found ∨ x ∈ declared := by
  induction declared generalizing found with
  | nil => exact Or.inl h
  | cons d rest ih =>
    rcases @ih (addUnique found d) h with h1 | h1
    · rcases mem_addUnique h1 with h2 | h2
      · exact Or.inl h2
      · exact Or.inr (h2 ▸ List.mem_cons_self d rest)
    · exact Or.inr (List.mem_cons_of_mem d h1)

theorem resolveAll_mem (view : RegView) (blocks : List LocalBlockData)
    (lds : List (String × List String)) (h : resolveAll view blocks = .ok lds) :
    ∀ entry ∈ lds, ∃ blk ∈ blocks, entry.1 = blk.id ∧
      ∃ found, resolve_bblock_deps view blk.id blk.refs = .ok found ∧
        entry.2 = merge_deps found blk.declared := by
  induction blocks generalizing lds with
  | nil =>
    unfold resolveAll at h
    simp only [Except.ok.injEq] at h
    intro entry hentry
    rw [← h] at hentry
    cases hentry
  | cons blk rest ih =>
    unfold resolveAll at h
    cases hres : resolve_bblock_deps view blk.id blk.refs with
    | error e => rw [hres] at h; cases h
    | ok found =>
      rw [hres] at h
      simp only [] at h
      cases hrest : resolveAll view rest with
      | error e => rw [hrest] at h; cases h
      | ok others =>
        rw [hrest] at h
        simp only [Except.ok.injEq] at h
        intro entry hentry
        rw [← h] at hentry
        rcases List.mem_cons.mp hentry with h1 | h1
        · exact ⟨blk, List.mem_cons_self _ _, by rw [h1], found, hres, by rw [h1]⟩
        · obtain ⟨b2, hb2, hrest2⟩ := ih others hrest entry h1
          exact ⟨b2, List.mem_cons_of_mem _ hb2, hrest2⟩

/-- C6 (amended): dependencies inferred from references are purged of the
block's own identifier, so a self-edge in the dependency graph can only
come from a declared `dependsOn` entry (or an imported block's declared
dependencies) naming the block itself — those are merged in unfiltered. -/
theorem self_dependencies_discarded :
    (∀ (reg : RegView) (bblockId : String) (refs ds : List String),
      resolve_bblock_deps reg bblockId refs = .ok ds → bblockId ∉ ds) ∧
    (∀ (fail_on_error : Bool) (inp : RegInput)
      (localDeps : List (String × List String)) (a : String),
      registerLocalDeps fail_on_error inp = .ok localDeps →
      (a, a) ∈ (buildDepGraph inp.importedBlocks localDeps).edges →
      (∃ entry ∈ inp.importedBlocks, entry.1 = a ∧ a ∈ entry.2) ∨
      (∃ blk ∈ inp.localBlocks, blk.id = a ∧ a ∈ blk.declared)) := by
  refine ⟨resolve_bblock_deps_no_self, ?_⟩
  intro fail_on_error inp localDeps a hld hedge
  unfold registerLocalDeps at hld
  cases hscan : registerScan fail_on_error inp with
  | error e => rw [hscan] at hld; cases hld
  | ok scanned =>
    rw [hscan] at hld
    simp only [] at hld
    obtain ⟨entry, hmem, hE2, hE1⟩ := buildDepGraph_edges_origin _ _ _ hedge
    rcases List.mem_append.mp hmem with himp | hloc
    · exact Or.inl ⟨entry, himp, hE2.symm, hE1⟩
    · obtain ⟨blk, hblk, hid, found, hres, hmerge⟩ := resolveAll_mem _ _ _ hld entry hloc
      have hblk2 : blk ∈ inp.localBlocks := List.mem_of_mem_filter hblk
      have hida : blk.id = a := by rw [← hid, ← hE2]
      rcases mem_merge_deps (hmerge ▸ hE1) with h1 | h1
      · exfalso
        have := resolve_bblock_deps_no_self _ _ _ _ hres
        rw [hida] at this
        exact this h1
      · exact Or.inr ⟨blk, hblk2, hida, h1⟩

/-- A single block declaring itself in `dependsOn`. -/
def selfDepScenario : RegInput := ⟨[⟨"A", true, ["A"], []⟩], [], [], [], []⟩

/-- C6 counterexample: a declared self-dependency is not discarded; the
dependency graph contains the self-edge (A, A) and construction then fails
on the 1-cycle. -/
theorem self_edge_counterexample :
    registerLocalDeps false selfDepScenario = .ok [("A", ["A"])] ∧
    ("A", "A") ∈ (buildDepGraph selfDepScenario.importedBlocks [("A", ["A"])]).edges ∧
    registerBuild false selfDepScenario = .error (.circular [["A"]]) :=
  ⟨rfl, by decide, rfl⟩

/-- Witness for `self_dependencies_discarded` at concrete inputs. -/
theorem self_dependencies_discarded_witness :
    (("B" : String) ∉ (["A"] : List String)) ∧
    ((∃ entry ∈ selfDepScenario.importedBlocks, entry.1 = "A" ∧ "A" ∈ entry.2) ∨
      (∃ blk ∈ selfDepScenario.localBlocks, blk.id = "A" ∧ "A" ∈ blk.declared)) :=
  ⟨self_dependencies_discarded.1 ⟨["A", "B"], [], [], [], []⟩ "B"
      ["bblocks://A", "bblocks://B"] ["A"] rfl,
    self_dependencies_discarded.2 false selfDepScenario [("A", ["A"])] "A" rfl (by decide)⟩

/-! ## Claim C8: duplicate identifiers vs the `fail_on_error` switch -/

theorem scanStep_false_error (acc : List String) (it : ScanItem) (e : RegError)
    (h : scanStep false acc it = .error e) : e = .duplicateId it.id := by
  unfold scanStep at h
  by_cases hc : acc.contains it.id
  · rw [if_pos hc] at h
    cases h
    rfl
  · rw [if_neg hc] at h
    by_cases hb : it.buildOk = true
    · rw [if_pos hb] at h; cases h
    · rw [if_neg hb] at h
      simp only [Bool.false_eq_true, if_false] at h
      cases h

theorem scanItems_dup_aux (fail_on_error : Bool) (items : List ScanItem) :
    ∀ (acc : List String),
    (∀ it ∈ items, it.buildOk = true) → acc.Nodup →
    ¬ (acc ++ items.map (fun it => it.id)).Nodup →
    ∃ d, scanItems fail_on_error items acc = .error (.duplicateId d) := by
  induction items with
  | nil =>
    intro acc hall hnd hcon
    rw [List.map_nil, List.append_nil] at hcon
    exact absurd hnd hcon
  | cons it rest ih =>
    intro acc hall hnd hcon
    by_cases hc : acc.contains it.id
    · refine ⟨it.id, ?_⟩
      unfold scanItems scanStep
      rw [if_pos hc]
    · have hbuild : it.buildOk = true := hall it (List.mem_cons_self _ _)
      have hstep : scanStep fail_on_error acc it = .ok (acc ++ [it.id]) := by
        unfold scanStep
        rw [if_neg hc, if_pos hbuild]
      show ∃ d, scanItems fail_on_error (it :: rest) acc = _
      unfold scanItems
      rw [hstep]
      apply ih
      · intro x hx
        exact hall x (List.mem_cons_of_mem _ hx)
      · rw [List.nodup_append]
        refine ⟨hnd, List.nodup_singleton _, ?_⟩
        intro x hx hx2
        rw [List.mem_singleton] at hx2
        subst hx2
        exact hc (contains_mem_str.mpr hx)
      · intro hcon2
        apply hcon
        rw [List.map_cons, List.append_cons]
        exact hcon2

theorem scanItems_false_no_build_error (items : List ScanItem) :
    ∀ (acc : List String) (e : RegError),
    scanItems false items acc = .error e → ∃ d, e = .duplicateId d := by
  induction items with
  | nil => intro acc e h; cases h
  | cons it rest ih =>
    intro acc e h
    unfold scanItems at h
    cases hstep : scanStep false acc it with
    | error e2 =>
      rw [hstep] at h
      cases h
      exact ⟨it.id, scanStep_false_error acc it _ hstep⟩
    | ok acc2 =>
      rw [hstep] at h
      exact ih acc2 e h

theorem scanItems_true_ok_all_build (items : List ScanItem) :
    ∀ (acc res : List String),
    scanItems true items acc = .ok res → ∀ it ∈ items, it.buildOk = true := by
  induction items with
  | nil => intro acc res _ it hit; cases hit
  | cons it rest ih =>
    intro acc res h it2 hit2
    unfold scanItems at h
    cases hstep : scanStep true acc it with
    | error e => rw [hstep] at h; cases h
    | ok acc2 =>
      rw [hstep] at h
      rcases List.mem_cons.mp hit2 with h1 | h1
      · subst h1
        unfold scanStep at hstep
        by_cases hc : acc.contains it2.id
        · rw [if_pos hc] at hstep; cases hstep
        · rw [if_neg hc] at hstep
          by_cases hb : it2.buildOk = true
          · exact hb
          · rw [if_neg hb] at hstep
            simp only [if_true] at hstep
            cases hstep
      · exact ih acc2 res h it2 h1

/-- C8 (amended): a duplicate identifier, once a block with that
identifier has been successfully registered, is fatal regardless of the
`fail_on_error` switch; with the switch unset no other error escapes the
scan (failing blocks are skipped), and with it set any build failure
aborts the scan. -/
theorem duplicate_identifier_always_fatal :
    (∀ (fail_on_error : Bool) (items : List ScanItem),
      (∀ it ∈ items, it.buildOk = true) →
      ¬ (items.map (fun it => it.id)).Nodup →
      ∃ d, scanItems fail_on_error items [] = .error (.duplicateId d)) ∧
    (∀ (items : List ScanItem) (acc : List String) (e : RegError),
      scanItems false items acc = .error e → ∃ d, e = .duplicateId d) ∧
    (∀ (items : List ScanItem) (acc res : List String),
      scanItems true items acc = .ok res → ∀ it ∈ items, it.buildOk = true) ∧
    (∀ (item : ScanItem) (rest : List ScanItem) (acc : List String),
      item.buildOk = false → acc.contains item.id = false →
      scanItems false (item :: rest) acc = scanItems false rest acc) := by
  refine ⟨?_, scanItems_false_no_build_error, scanItems_true_ok_all_build, ?_⟩
  · intro fail_on_error items hall hdup
    apply scanItems_dup_aux fail_on_error items [] hall List.nodup_nil
    rw [List.nil_append]
    exact hdup
  · intro item rest acc hfail hnc
    show (match scanStep false acc item with
      | .error e => Except.error e
      | .ok acc2 => scanItems false rest acc2) = _
    have hstep : scanStep false acc item = .ok acc := by
      unfold scanStep
      rw [if_neg (by rw [hnc]; exact Bool.false_ne_true), if_neg (by rw [hfail]; exact Bool.false_ne_true)]
      rfl
    rw [hstep]

/-- C8 counterexample: two items with the same computed identifier where
the first fails to build under `fail_on_error = False`: the scan
terminates without any fatal error, registering the second item. -/
theorem duplicate_identifier_corner_counterexample :
    scanItems false [⟨"A", false⟩, ⟨"A", true⟩] [] = .ok ["A"] := rfl

/-- Witness for `duplicate_identifier_always_fatal` at concrete inputs. -/
theorem duplicate_identifier_always_fatal_witness :
    ∃ d, scanItems true [⟨"X", true⟩, ⟨"X", true⟩] [] = .error (.duplicateId d) :=
  duplicate_identifier_always_fatal.1 true [⟨"X", true⟩, ⟨"X", true⟩]
    (by decide) (by decide)

/-! ## Claim C4: `RegisterSchemaResolver.find_schema` (`schema.py`)

`find_schema` first normalises a `Path` argument with `os.path.relpath`;
locations here are already such canonical strings.  A lookup in
`local_bblock_files` resolves to the owning block and substitutes its
annotated schema only when that file already exists on disk; a lookup in
`imported_bblock_files` substitutes the imported block's advertised
`application/yaml` schema URL; anything else is returned unchanged.
Failed dict indexing (a Python `KeyError`) is modelled as `none`. -/

def lookupAssoc {α : Type} : List (String × α) → String → Option α
  | [], _ => none
  | (k, v) :: rest, key => if k == key then some v else lookupAssoc rest key

structure ResolverRegister where
  local_bblock_files : List (String × String)
  imported_bblock_files : List (String × String)
  bblocks : List (String × String)
  imported_bblocks : List (String × List (String × String))
  existingFiles : List String

def find_schema (reg : ResolverRegister) (s : String) : Option String :=
  match lookupAssoc reg.local_bblock_files s with
  | some bblock_id =>
    match lookupAssoc reg.bblocks bblock_id with
    | none => none
    | some annotated =>
      some (if reg.existingFiles.contains annotated then annotated else s)
  | none =>
    match lookupAssoc reg.imported_bblock_files s with
    | some bblock_id =>
      match lookupAssoc reg.imported_bblocks bblock_id with
      | none => none
      | some schemaDict => lookupAssoc schemaDict "application/yaml"
    | none => some s

/-- C4: resolution policy of `find_schema`: a known local block's location
maps to the annotated schema iff it exists on disk (else stays put), a
known imported block's location maps to its advertised `application/yaml`
schema URL, and anything else is returned unchanged. -/
theorem find_schema_resolution (reg : ResolverRegister) (s : String) :
    (∀ bblock_id annotated,
      lookupAssoc reg.local_bblock_files s = some bblock_id →
      lookupAssoc reg.bblocks bblock_id = some annotated →
      reg.existingFiles.contains annotated = true →
      find_schema reg s = some annotated) ∧
    (∀ bblock_id annotated,
      lookupAssoc reg.local_bblock_files s = some bblock_id →
      lookupAssoc reg.bblocks bblock_id = some annotated →
      reg.existingFiles.contains annotated = false →
      find_schema reg s = some s) ∧
    (∀ bblock_id schemaDict,
      lookupAssoc reg.local_bblock_files s = none →
      lookupAssoc reg.imported_bblock_files s = some bblock_id →
      lookupAssoc reg.imported_bblocks bblock_id = some schemaDict →
      find_schema reg s = lookupAssoc schemaDict "application/yaml") ∧
    (lookupAssoc reg.local_bblock_files s = none →
      lookupAssoc reg.imported_bblock_files s = none →
      find_schema reg s = some s) := by
  refine ⟨?_, ?_, ?_, ?_⟩
  · intro bblock_id annotated h1 h2 h3
    simp [find_schema, h1, h2, h3]
    intro hcon
    exact absurd (contains_mem_str.mp h3) hcon
  · intro bblock_id annotated h1 h2 h3
    simp [find_schema, h1, h2, h3]
    intro hmem
    rw [contains_mem_str.mpr hmem] at h3
    cases h3
  · intro bblock_id schemaDict h1 h2 h3
    simp [find_schema, h1, h2, h3]
  · intro h1 h2
    simp [find_schema, h1, h2]

/-- A small register world exercising all four resolution branches. -/
def resolverDemo : ResolverRegister :=
  ⟨[("x/schema.yaml", "X")], [("http://r/y.yaml", "Y")],
    [("X", "ann/x/schema.yaml")],
    [("Y", [("application/yaml", "http://r/ann/y.yaml")])],
    ["ann/x/schema.yaml"]⟩

/-- The same register before the annotated schema of `X` exists. -/
def resolverDemoEarly : ResolverRegister :=
  ⟨[("x/schema.yaml", "X")], [("http://r/y.yaml", "Y")],
    [("X", "ann/x/schema.yaml")],
    [("Y", [("application/yaml", "http://r/ann/y.yaml")])],
    []⟩

/-- Witness for `find_schema_resolution` at concrete registers. -/
theorem find_schema_resolution_witness :
    find_schema resolverDemo "x/schema.yaml" = some "ann/x/schema.yaml" ∧
    find_schema resolverDemoEarly "x/schema.yaml" = some "x/schema.yaml" ∧
    find_schema resolverDemo "http://r/y.yaml" =
      lookupAssoc [("application/yaml", "http://r/ann/y.yaml")] "application/yaml" ∧
    find_schema resolverDemo "other.yaml" = some "other.yaml" :=
  ⟨(find_schema_resolution resolverDemo "x/schema.yaml").1 "X" "ann/x/schema.yaml"
      rfl rfl rfl,
    (find_schema_resolution resolverDemoEarly "x/schema.yaml").2.1 "X" "ann/x/schema.yaml"
      rfl rfl rfl,
    (find_schema_resolution resolverDemo "http://r/y.yaml").2.2.1 "Y"
      [("application/yaml", "http://r/ann/y.yaml")] rfl rfl rfl,
    (find_schema_resolution resolverDemo "other.yaml").2.2.2 rfl rfl⟩

/-! ## Claim C9: `ImportedBuildingBlocks` traversal (`models.py`)

The constructor runs a FIFO loop over pending register URLs; `load(url)`
fetches the document (here: a lookup into an explicit world, with the
fetch appended to a log), records `imported_registers[url]`, indexes the
block summaries and returns the `imports` list; the caller appends those
imports that are not yet in `imported_registers`. -/

def setAssoc {α : Type} : List (String × α) → String → α → List (String × α)
  | [], key, v => [(key, v)]
  | (k0, v0) :: rest, key, v =>
    if k0 == key then (k0, v) :: rest else (k0, v0) :: setAssoc rest key v

structure ImportDoc where
  bblocks : List String
  imports : List String

structure ImpState where
  bblocksIdx : List String
  imported_registers : List (String × List String)
  fetchLog : List String

/-- `ImportedBuildingBlocks.load`: fetch, record, index, return imports. -/
def loadRegister (world : List (String × ImportDoc)) (st : ImpState) (url : String) :
    ImpState × List String :=
  match lookupAssoc world url with
  | none => (⟨st.bblocksIdx, setAssoc st.imported_registers url [],
      st.fetchLog ++ [url]⟩, [])
  | some doc =>
    (⟨doc.bblocks.foldl addUnique st.bblocksIdx,
      setAssoc st.imported_registers url doc.bblocks,
      st.fetchLog ++ [url]⟩, doc.imports)

/-- The `while pending_urls` loop of the constructor. -/
def importLoop (world : List (String × ImportDoc)) :
    Nat → List String → ImpState → ImpState
  | 0, _, st => st
  | _ + 1, [], st => st
  | fuel + 1, url :: rest, st =>
    importLoop world fuel
      (rest ++ (loadRegister world st url).2.filter
        (fun u => (lookupAssoc (loadRegister world st url).1.imported_registers u).isNone))
      (loadRegister world st url).1

theorem isSome_lookup_setAssoc {α : Type} (l : List (String × α)) (k u : String) (v : α)
    (h : (lookupAssoc l u).isSome = true) :
    (lookupAssoc (setAssoc l k v) u).isSome = true := by
  induction l with
  | nil => cases h
  | cons kv rest ih =>
    unfold setAssoc
    by_cases hk : kv.1 == k
    · rw [if_pos hk]
      unfold lookupAssoc at h ⊢
      by_cases hu : kv.1 == u
      · rw [if_pos hu]; rfl
      · rw [if_neg hu] at h ⊢; exact h
    · rw [if_neg hk]
      unfold lookupAssoc at h ⊢
      by_cases hu : kv.1 == u
      · rw [if_pos hu]; rfl
      · rw [if_neg hu] at h ⊢; exact ih h

theorem loadRegister_log (world : List (String × ImportDoc)) (st : ImpState) (url : String) :
    (loadRegister world st url).1.fetchLog = st.fetchLog ++ [url] := by
  unfold loadRegister
  cases lookupAssoc world url with
  | none => rfl
  | some doc => rfl

theorem loadRegister_loaded_mono (world : List (String × ImportDoc)) (st : ImpState)
    (url u : String) (h : (lookupAssoc st.imported_registers u).isSome = true) :
    (lookupAssoc (loadRegister world st url).1.imported_registers u).isSome = true := by
  unfold loadRegister
  cases lookupAssoc world url with
  | none => exact isSome_lookup_setAssoc _ _ _ _ h
  | some doc => exact isSome_lookup_setAssoc _ _ _ _ h

/-- C9 (amended): once a register URL has been recorded as loaded, it is
never fetched again: all later fetches of it come only from occurrences
already sitting in the pending queue, of which there are none after its
load — but a URL enqueued several times before its first load (duplicated
initial URLs, or imported by two registers) is fetched once per queue
occurrence. -/
theorem loaded_register_not_refetched (world : List (String × ImportDoc)) (fuel : Nat) :
    ∀ (queue : List String) (st : ImpState) (u : String),
    (lookupAssoc st.imported_registers u).isSome = true →
    (importLoop world fuel queue st).fetchLog.count u ≤
      st.fetchLog.count u + queue.count u := by
  induction fuel with
  | zero =>
    intro queue st u _
    exact Nat.le_add_right _ _
  | succ fuel ih =>
    intro queue st u hu
    cases queue with
    | nil => exact Nat.le_add_right _ _
    | cons url rest =>
      show (importLoop world fuel _ (loadRegister world st url).1).fetchLog.count u ≤ _
      have hu2 : (lookupAssoc (loadRegister world st url).1.imported_registers u).isSome
          = true := loadRegister_loaded_mono world st url u hu
      have hfil : ((loadRegister world st url).2.filter
          (fun x => (lookupAssoc (loadRegister world st url).1.imported_registers x).isNone)).count
            u = 0 := by
        apply List.count_eq_zero.mpr
        intro hmem
        have := List.of_mem_filter hmem
        rw [Option.isNone_iff_eq_none] at this
        rw [this] at hu2
        cases hu2
      have := ih (rest ++ (loadRegister world st url).2.filter
          (fun x => (lookupAssoc (loadRegister world st url).1.imported_registers x).isNone))
        (loadRegister world st url).1 u hu2
      rw [List.count_append, hfil, loadRegister_log, List.count_append,
        List.count_cons, List.count_nil] at this
      rw [List.count_cons]
      omega

/-- Two initial registers both importing a common third one. -/
def diamondWorld : List (String × ImportDoc) :=
  [("regA", ⟨["a1"], ["regC"]⟩), ("regB", ⟨["b1"], ["regC"]⟩), ("regC", ⟨["c1"], []⟩)]

/-- C9 counterexample: starting from `[regA, regB]`, the shared import
`regC` is enqueued twice before its first load and fetched twice. -/
theorem import_refetch_counterexample :
    (importLoop diamondWorld 10 ["regA", "regB"] ⟨[], [], []⟩).fetchLog
      = ["regA", "regB", "regC", "regC"] ∧
    (importLoop diamondWorld 10 ["regA", "regB"] ⟨[], [], []⟩).fetchLog.count "regC" = 2 :=
  ⟨rfl, rfl⟩

/-- Witness for `loaded_register_not_refetched`: with `regC` already
loaded, running the loop from `[regA]` never fetches `regC` again. -/
theorem loaded_register_not_refetched_witness :
    (importLoop diamondWorld 10 ["regA"] ⟨[], [("regC", [])], []⟩).fetchLog.count "regC" ≤
      0 + (["regA"] : List String).count "regC" :=
  loaded_register_not_refetched diamondWorld 10 ["regA"] ⟨[], [("regC", [])], []⟩
    "regC" rfl

/-! ## Extension composition (`extension.py`, `Extender._process_schema`)

The walk operates on the parent block's resolved schema.  Mutable Python
state becomes `CompState`: the resolver's document cache (`docs`, which
the walk mutates in place through `dict.pop`), the substitution map
`extension_schema_mappings` keyed by resolved source-schema location, the
`visited_refs` keys, the `SchemaNode` store in creation order (children
lists are recovered from the `parent` back-references, in creation order,
exactly as Python appends them), and the roots (`schema_branches`).

Reference resolution is the flat, fragment-free case: every reference is
already the canonical location of a document in the cache, so
`resolve_location` is the identity and `get_ref` returns the location
itself (`base_url` unset).  `mark_preserve_branch` is called only at the
creation of a substituted reference node, so a node records `marked`
at creation and the final `preserve_branch` flags are recovered as
"some marked node lies in this node's subtree". -/

def strOfJVal : JVal → String
  | .str s => s
  | _ => ""

def JVal.isObj : JVal → Bool
  | .obj _ => true
  | _ => false

def resolve_location (ref _fromLoc : String) : String := ref

structure ExtMapping where
  extension_source_id : String
  extension_target_id : String
  extension_target_ref : String

structure WNode where
  tag : String
  fromLoc : String
  parent : Option Nat
  is_properties : Bool
  subschema : Option JVal
  marked : Bool

structure CompState where
  docs : List (String × JVal)
  mappings : List (String × ExtMapping)
  visited : List String
  nodes : List WNode
  roots : List Nat

def create_schema_node (st : CompState) (parentIdx : Option Nat) (tag : String)
    (fromLoc : String) (is_properties : Bool) (subschema : Option JVal)
    (marked : Bool) : CompState × Nat :=
  let idx := st.nodes.length
  let node : WNode := ⟨tag, fromLoc, parentIdx, is_properties, subschema, marked⟩
  match parentIdx with
  | none => (⟨st.docs, st.mappings, st.visited, st.nodes ++ [node], st.roots ++ [idx]⟩, idx)
  | some _ => (⟨st.docs, st.mappings, st.visited, st.nodes ++ [node], st.roots⟩, idx)

/-- Update a node's stored subschema to the walked residual (in Python the
node holds a reference to the dict that the walk mutates in place). -/
def setNodeSub (st : CompState) (i : Nat) (v : JVal) : CompState :=
  match st.nodes[i]? with
  | some n =>
    ⟨st.docs, st.mappings, st.visited,
      st.nodes.set i ⟨n.tag, n.fromLoc, n.parent, n.is_properties, some v, n.marked⟩,
      st.roots⟩
  | none => st

/-- A node's children, in creation order. -/
def childIndices (nodes : List WNode) (i : Nat) : List Nat :=
  (List.range nodes.length).filter fun j =>
    match nodes[j]? with
    | some n => n.parent == some i
    | none => false

/-- The upward search over the ancestor chain performed when a `$ref`
matches a substitution: an ancestor `$ref` node already tagged as an
extension point sets `skip_node`; an untagged ancestor `$ref` is an
undetected alias whose resolved location is added to the substitution
map; the walk stops at the first ancestor that is neither a `$ref`, nor a
branch entry, nor a single-child combinator. -/
def chainSearch (extTarget : ExtMapping) :
    Nat → CompState → Option Nat → Bool → CompState × Bool
  | 0, st, _, skip => (st, skip)
  | _ + 1, st, none, skip => (st, skip)
  | fuel + 1, st, some i, skip =>
    match st.nodes[i]? with
    | none => (st, skip)
    | some n =>
      if n.tag == "$ref" then
        if ((n.subschema.getD .null).lookupKey "x-bblocks-extension-source").isSome then
          chainSearch extTarget fuel st n.parent true
        else
          let aliasLoc := resolve_location
            (strOfJVal ((n.subschema.getD .null).lookupKey "$ref" |>.getD .null)) n.fromLoc
          chainSearch extTarget fuel
            ⟨st.docs, setAssoc st.mappings aliasLoc extTarget, st.visited, st.nodes, st.roots⟩
            n.parent skip
      else if n.tag != "[]" &&
          (!(n.tag == "oneOf" || n.tag == "allOf" || n.tag == "anyOf") ||
            (childIndices st.nodes i).length > 1) then
        (st, skip)
      else chainSearch extTarget fuel st n.parent skip

/-- Keys the walk pops from every dict it processes. -/
def handledKeys : List String :=
  ["$ref", "oneOf", "allOf", "anyOf", "prefixItems", "items", "contains",
    "then", "else", "additionalProperties", "properties", "patternProperties"]

/-- Resolved location of a dict's `$ref` target, if any. -/
def refTargetOf (sub : JVal) (fromLoc : String) : Option String :=
  match sub.lookupKey "$ref" with
  | some v => some (resolve_location (strOfJVal v) fromLoc)
  | none => none

/-- The `$ref` phase of `walk_subschema` (lines 205-257): pop the
reference, resolve it, match it against the substitution map (with the
ancestor chain search), create or reuse the reference node, stop at
already-visited targets, otherwise recurse into the target document and
write the mutated target back into the resolver cache.  The third
component is true when the walk must return early (visited target). -/
def walkRefPhase (walkFn : CompState → JVal → String → Option Nat → CompState × JVal)
    (st : CompState) (sub : JVal) (fromLoc : String) (parentIdx : Option Nat) :
    CompState × JVal × Bool :=
  match sub.lookupKey "$ref" with
  | none => (st, sub, false)
  | some refVal =>
    let ref := strOfJVal refVal
    let targetLoc := resolve_location ref fromLoc
    let extTargetOpt := lookupAssoc st.mappings targetLoc
    let stsk : CompState × Bool :=
      match extTargetOpt with
      | some extTarget => chainSearch extTarget (st.nodes.length + 1) st parentIdx false
      | none => (st, false)
    let created : CompState × Option Nat :=
      if stsk.2 then (stsk.1, parentIdx)
      else
        let subNew : JVal :=
          match extTargetOpt with
          | some extTarget => .obj [("$ref", .str extTarget.extension_target_ref),
              ("x-bblocks-extension-source", .str extTarget.extension_source_id),
              ("x-bblocks-extension-target", .str extTarget.extension_target_id)]
          | none => .obj [("$ref", .str ref)]
        let cr := create_schema_node stsk.1 parentIdx "$ref" fromLoc false (some subNew)
          extTargetOpt.isSome
        (cr.1, some cr.2)
    ((if created.1.visited.contains targetLoc then created.1
      else
        let st3 : CompState := ⟨created.1.docs, created.1.mappings,
          created.1.visited ++ [targetLoc], created.1.nodes, created.1.roots⟩
        let targetContents := (lookupAssoc st3.docs targetLoc).getD .null
        let wr := walkFn st3 targetContents targetLoc created.2
        ⟨setAssoc wr.1.docs targetLoc wr.2, wr.1.mappings, wr.1.visited, wr.1.nodes,
          wr.1.roots⟩),
      sub.eraseKey "$ref",
      created.1.visited.contains targetLoc)

/-- One combinator keyword (lines 259-268): pop it; a non-empty list value
gets a container node and one walked branch-entry node per element. -/
def walkCombinator (walkFn : CompState → JVal → String → Option Nat → CompState × JVal)
    (fromLoc : String) (parentIdx : Option Nat) (acc : CompState × JVal) (p : String) :
    CompState × JVal :=
  let collection := acc.2.lookupKey p
  let sub2 := acc.2.eraseKey p
  match collection with
  | some (.arr entries) =>
    if entries.isEmpty then (acc.1, sub2)
    else
      let cr := create_schema_node acc.1 parentIdx p fromLoc false (some (.arr entries)) false
      let stFinal := entries.foldl (fun st2 entry =>
        let er := create_schema_node st2 (some cr.2) "[]" fromLoc false (some entry) false
        let wr := walkFn er.1 entry fromLoc (some er.2)
        setNodeSub wr.1 er.2 wr.2) cr.1
      (stFinal, sub2)
  | some _ => (acc.1, sub2)
  | none => (acc.1, sub2)

/-- One single-subschema keyword (lines 270-274): pop it; a dict value
gets a keyword node walked recursively. -/
def walkKeyword (walkFn : CompState → JVal → String → Option Nat → CompState × JVal)
    (fromLoc : String) (parentIdx : Option Nat) (acc : CompState × JVal) (i : String) :
    CompState × JVal :=
  let l := acc.2.lookupKey i
  let sub2 := acc.2.eraseKey i
  match l with
  | some (.obj lf) =>
    let er := create_schema_node acc.1 parentIdx i fromLoc false (some (.obj lf)) false
    let wr := walkFn er.1 (.obj lf) fromLoc (some er.2)
    (setNodeSub wr.1 er.2 wr.2, sub2)
  | some _ => (acc.1, sub2)
  | none => (acc.1, acc.2)

/-- `properties` (lines 276-282): pop it when present; one named-property
node per declared property, each walked recursively. -/
def walkProperties (walkFn : CompState → JVal → String → Option Nat → CompState × JVal)
    (fromLoc : String) (parentIdx : Option Nat) (acc : CompState × JVal) :
    CompState × JVal :=
  match acc.2.lookupKey "properties" with
  | none => acc
  | some propsVal =>
    let sub2 := acc.2.eraseKey "properties"
    match propsVal with
    | .obj props =>
      let cr := create_schema_node acc.1 parentIdx "properties" fromLoc false none false
      let stFinal := props.foldl (fun st2 kv =>
        let er := create_schema_node st2 (some cr.2) kv.1 fromLoc true (some kv.2) false
        let wr := walkFn er.1 kv.2 fromLoc (some er.2)
        setNodeSub wr.1 er.2 wr.2) cr.1
      (stFinal, sub2)
    | _ => (acc.1, sub2)

/-- `patternProperties` (lines 284-290): popped with a default; a truthy
dict value gets a container node and one node per pattern (note the
Python code passes no subschema for these nodes), each dict-valued
pattern walked recursively. -/
def walkPatternProperties
    (walkFn : CompState → JVal → String → Option Nat → CompState × JVal)
    (fromLoc : String) (parentIdx : Option Nat) (acc : CompState × JVal) :
    CompState × JVal :=
  let pp := acc.2.lookupKey "patternProperties"
  let sub2 := acc.2.eraseKey "patternProperties"
  match pp with
  | some (.obj ppf) =>
    if ppf.isEmpty then (acc.1, sub2)
    else
      let cr := create_schema_node acc.1 parentIdx "patternProperties" fromLoc false none false
      let stFinal := ppf.foldl (fun st2 kv =>
        match kv.2 with
        | .obj _ =>
          let er := create_schema_node st2 (some cr.2) kv.1 fromLoc true none false
          (walkFn er.1 kv.2 fromLoc (some er.2)).1
        | _ => st2) cr.1
      (stFinal, sub2)
  | some _ => (acc.1, sub2)
  | none => (acc.1, sub2)

/-- `walk_subschema` (lines 201-290): empty or non-dict subschemas are
ignored; otherwise the `$ref` phase runs first (possibly returning
early at a visited target), then combinators, single-subschema keywords,
`properties` and `patternProperties`, each popping its key.  Returns the
final state and the residual (mutated) subschema. -/
def walk_subschema : Nat → CompState → JVal → String → Option Nat → CompState × JVal
  | 0, st, sub, _, _ => (st, sub)
  | fuel + 1, st, sub, fromLoc, parentIdx =>
    match sub with
    | .obj fields =>
      if fields.isEmpty then (st, sub)
      else
        match walkRefPhase (walk_subschema fuel) st (.obj fields) fromLoc parentIdx with
        | (st1, sub1, true) => (st1, sub1)
        | (st1, sub1, false) =>
          let p2 := ["oneOf", "allOf", "anyOf"].foldl
            (walkCombinator (walk_subschema fuel) fromLoc parentIdx) (st1, sub1)
          let p3 := ["prefixItems", "items", "contains", "then", "else",
            "additionalProperties"].foldl
            (walkKeyword (walk_subschema fuel) fromLoc parentIdx) p2
          let p4 := walkProperties (walk_subschema fuel) fromLoc parentIdx p3
          walkPatternProperties (walk_subschema fuel) fromLoc parentIdx p4
    | _ => (st, sub)

/-- The ancestor index chain of a node (itself first). -/
def ancestorIdxChain (nodes : List WNode) : Nat → Nat → List Nat
  | 0, i => [i]
  | fuel + 1, i =>
    i :: (match nodes[i]? with
      | some n =>
        match n.parent with
        | some p => ancestorIdxChain nodes fuel p
        | none => []
      | none => [])

/-- Final value of a node's `preserve_branch` flag: `mark_preserve_branch`
is called exactly when a substituted reference node is created, and marks
the node and all its ancestors, so a node ends up preserved iff some
marked node lies in its subtree. -/
def preserve_branch (st : CompState) (i : Nat) : Bool :=
  (List.range st.nodes.length).any fun j =>
    match st.nodes[j]? with
    | some n => n.marked && (ancestorIdxChain st.nodes st.nodes.length j).contains i
    | none => false

/-- `update_refs` (lines 311-332): extension-point objects are returned
untouched; other non-URL `$ref` values are replaced by the resolved
location suffixed with the fragment if there is one — the source line
`target.location + f"#{target.fragment}" if target.fragment else ''` is a
conditional expression, so a fragment-free target (the only case in this
flat model) yields the empty string; `properties` values have their keys
treated as property names, not keywords. -/
def update_refs : Nat → JVal → String → Bool → JVal
  | 0, sub, _, _ => sub
  | fuel + 1, sub, fromLoc, is_properties =>
    match sub with
    | .obj fields =>
      if !is_properties && (JVal.obj fields).hasKey "x-bblocks-extension-source" then
        .obj fields
      else
        .obj (fields.map fun kv =>
          if !is_properties && kv.1 == "$ref" then
            (kv.1, match kv.2 with
              | .str r => if is_url r then .str r else .str ""
              | v => v)
          else (kv.1, update_refs fuel kv.2 fromLoc (!is_properties && kv.1 == "properties")))
    | .arr xs => .arr (xs.map fun x => update_refs fuel x fromLoc false)
    | v => v

/-- `walk_branch` (lines 334-362): reconstruct the output for one tree,
emitting preserved nodes; emission is force-propagated into every child
of a `oneOf`/`anyOf` container, while `allOf` children keep their own
flags (a non-preserved `allOf` child leaves its appended entry empty). -/
def walk_branch (st : CompState) : Nat → Nat → JVal → Bool → JVal
  | 0, _, parent_schema, _ => parent_schema
  | fuel + 1, i, parent_schema, force =>
    match st.nodes[i]? with
    | none => parent_schema
    | some node =>
      if !force && !(preserve_branch st i) then parent_schema
      else
        let children := childIndices st.nodes i
        if node.tag == "$ref" && (node.subschema.getD .null).isTruthy &&
            children.isEmpty then
          if parent_schema.isTruthy then
            parent_schema.setKey "allOf" (.arr
              ((match parent_schema.lookupKey "allOf" with
                | some (.arr xs) => xs
                | _ => []) ++
                [update_refs (fuel + 1) (node.subschema.getD .null) node.fromLoc false]))
          else parent_schema.updateWith
            (update_refs (fuel + 1) (node.subschema.getD .null) node.fromLoc false)
        else if node.tag == "oneOf" || node.tag == "anyOf" || node.tag == "allOf" then
          parent_schema.setKey node.tag (.arr
            ((match parent_schema.lookupKey node.tag with
              | some (.arr xs) => xs
              | _ => []) ++
              children.map (fun c => walk_branch st fuel c (.obj [])
                (force || node.tag == "oneOf" || node.tag == "anyOf"))))
        else
          if node.tag != "[]" && node.tag != "$ref" && children.isEmpty then
            parent_schema.setKey node.tag
              (update_refs (fuel + 1) (node.subschema.getD .null) node.fromLoc false)
          else if node.tag == "[]" || node.tag == "$ref" then
            let base := if node.tag == "[]" ||
                (node.subschema.getD .null).hasKey "x-bblocks-extension-target" then
              parent_schema.updateWith
                (update_refs (fuel + 1) (node.subschema.getD .null) node.fromLoc false)
            else parent_schema
            children.foldl (fun acc c => walk_branch st fuel c acc force) base
          else
            parent_schema.setKey node.tag
              (children.foldl (fun acc c => walk_branch st fuel c acc force) (.obj []))

def allOfBranches (j : JVal) : List JVal :=
  match j.lookupKey "allOf" with
  | some (.arr xs) => xs
  | _ => []

/-- `_process_schema` (lines 172-368): walk the parent's resolved schema
(mutating the cached documents), then assemble
`{$schema, x-bblocks-extends, x-bblocks-extensions, allOf: [{$ref:
parent}, ...branches]}` with one reconstructed branch per preserved
root. -/
def process_schema (docs : List (String × JVal)) (mappings : List (String × ExtMapping))
    (parent_id : String) (extensions : List (String × String))
    (root_loc root_loc_out : String) (fuel : Nat) : JVal × CompState :=
  let st0 : CompState := ⟨docs, mappings, [], [], []⟩
  let rootContents := (lookupAssoc docs root_loc).getD .null
  let wr := walk_subschema fuel st0 rootContents root_loc none
  let st : CompState := ⟨setAssoc wr.1.docs root_loc wr.2, wr.1.mappings, wr.1.visited,
    wr.1.nodes, wr.1.roots⟩
  let branches := st.roots.filterMap fun r =>
    if preserve_branch st r then some (walk_branch st fuel r (.obj []) false) else none
  (.obj [
    ("$schema", .str "https://json-schema.org/draft/2020-12/schema"),
    ("x-bblocks-extends", .str parent_id),
    ("x-bblocks-extensions", .obj (extensions.map fun kv => (kv.1, .str kv.2))),
    ("allOf", .arr (JVal.obj [("$ref", .str root_loc_out)] :: branches))], st)

/-! ## Residual-key lemmas for the walk (claim C10) -/

theorem lookupField_eraseField (fs : List (String × JVal)) (k : String) :
    lookupField (eraseField fs k) k = none := by
  induction fs with
  | nil => rfl
  | cons kv rest ih =>
    obtain ⟨k0, v0⟩ := kv
    unfold eraseField at ih ⊢
    rw [List.filter_cons]
    cases hkk : k0 == k with
    | true =>
      have hb : ((k0, v0).1 != k) = false := by
        show (k0 != k) = false
        rw [bne, hkk]
        rfl
      rw [hb]
      simp only [Bool.false_eq_true, if_false]
      exact ih
    | false =>
      have hb : ((k0, v0).1 != k) = true := by
        show (k0 != k) = true
        rw [bne, hkk]
        rfl
      rw [hb]
      simp only [if_true]
      show (if k0 == k then some v0 else lookupField (List.filter _ rest) k) = none
      rw [hkk]
      simp only [Bool.false_eq_true, if_false]
      exact ih

theorem lookupField_filter_none (fs : List (String × JVal)) (k : String)
    (f : String × JVal → Bool) (h : lookupField fs k = none) :
    lookupField (fs.filter f) k = none := by
  induction fs with
  | nil => rfl
  | cons kv rest ih =>
    obtain ⟨k0, v0⟩ := kv
    have hk : (k0 == k) = false := by
      cases hkk : k0 == k with
      | false => rfl
      | true =>
        exfalso
        have : lookupField ((k0, v0) :: rest) k = some v0 := by
          show (if k0 == k then some v0 else _) = some v0
          rw [hkk]
          rfl
        rw [this] at h
        cases h
    have hrest : lookupField rest k = none := by
      have : lookupField ((k0, v0) :: rest) k = lookupField rest k := by
        show (if k0 == k then some v0 else _) = _
        rw [hk]
        rfl
      rw [← this]
      exact h
    rw [List.filter_cons]
    cases hf : f (k0, v0) with
    | true =>
      simp only [if_true]
      show (if k0 == k then some v0 else lookupField (List.filter f rest) k) = none
      rw [hk]
      simp only [Bool.false_eq_true, if_false]
      exact ih hrest
    | false =>
      simp only [Bool.false_eq_true, if_false]
      exact ih hrest

theorem hasKey_eraseKey_self (j : JVal) (k : String) : (j.eraseKey k).hasKey k = false := by
  cases j with
  | obj fs =>
    show (lookupField (eraseField fs k) k).isSome = false
    rw [lookupField_eraseField]
    rfl
  | str s => rfl
  | num n => rfl
  | boolean b => rfl
  | null => rfl
  | arr xs => rfl

theorem hasKey_eraseKey_pres (j : JVal) (k k2 : String) (h : j.hasKey k = false) :
    (j.eraseKey k2).hasKey k = false := by
  cases j with
  | obj fs =>
    have hnone : lookupField fs k = none := by
      cases hl : lookupField fs k with
      | none => rfl
      | some v =>
        exfalso
        have htrue : (JVal.obj fs).hasKey k = true := by
          show (lookupField fs k).isSome = true
          rw [hl]
          rfl
        rw [htrue] at h
        cases h
    show (lookupField (eraseField fs k2) k).isSome = false
    unfold eraseField
    rw [lookupField_filter_none fs k _ hnone]
    rfl
  | str s => exact h
  | num n => exact h
  | boolean b => exact h
  | null => exact h
  | arr xs => exact h

theorem walkCombinator_residual
    (w : CompState → JVal → String → Option Nat → CompState × JVal)
    (fl : String) (pidx : Option Nat) (acc : CompState × JVal) (p : String) :
    (walkCombinator w fl pidx acc p).2 = acc.2.eraseKey p := by
  simp only [walkCombinator]
  split
  · split
    · rfl
    · rfl
  · rfl
  · rfl

theorem walkCombinator_hasKey
    (w : CompState → JVal → String → Option Nat → CompState × JVal)
    (fl : String) (pidx : Option Nat) (acc : CompState × JVal) (p k : String)
    (h : acc.2.hasKey k = false ∨ k = p) :
    ((walkCombinator w fl pidx acc p).2).hasKey k = false := by
  rw [walkCombinator_residual]
  rcases h with h | h
  · exact hasKey_eraseKey_pres _ _ _ h
  · rw [h]
    exact hasKey_eraseKey_self _ _

theorem foldl_walkCombinator_hasKey
    (w : CompState → JVal → String → Option Nat → CompState × JVal)
    (fl : String) (pidx : Option Nat) (ps : List String) :
    ∀ (acc : CompState × JVal) (k : String),
    (acc.2.hasKey k = false ∨ k ∈ ps) →
    ((ps.foldl (walkCombinator w fl pidx) acc).2).hasKey k = false := by
  induction ps with
  | nil =>
    intro acc k h
    rcases h with h | h
    · exact h
    · cases h
  | cons p rest ih =>
    intro acc k h
    show ((rest.foldl (walkCombinator w fl pidx)
      (walkCombinator w fl pidx acc p)).2).hasKey k = false
    apply ih
    rcases h with h | h
    · exact Or.inl (walkCombinator_hasKey w fl pidx acc p k (Or.inl h))
    · rcases List.mem_cons.mp h with h2 | h2
      · exact Or.inl (walkCombinator_hasKey w fl pidx acc p k (Or.inr h2))
      · exact Or.inr h2

theorem walkKeyword_residual
    (w : CompState → JVal → String → Option Nat → CompState × JVal)
    (fl : String) (pidx : Option Nat) (acc : CompState × JVal) (i : String) :
    (walkKeyword w fl pidx acc i).2 = acc.2.eraseKey i ∨
      (acc.2.lookupKey i = none ∧ (walkKeyword w fl pidx acc i).2 = acc.2) := by
  simp only [walkKeyword]
  split
  · next heq => exact Or.inl rfl
  · next heq => exact Or.inl rfl
  · next heq => exact Or.inr ⟨heq, rfl⟩

theorem walkKeyword_hasKey
    (w : CompState → JVal → String → Option Nat → CompState × JVal)
    (fl : String) (pidx : Option Nat) (acc : CompState × JVal) (i k : String)
    (h : acc.2.hasKey k = false ∨ k = i) :
    ((walkKeyword w fl pidx acc i).2).hasKey k = false := by
  rcases walkKeyword_residual w fl pidx acc i with hres | ⟨hnone, hres⟩
  · rw [hres]
    rcases h with h | h
    · exact hasKey_eraseKey_pres _ _ _ h
    · rw [h]
      exact hasKey_eraseKey_self _ _
  · rw [hres]
    rcases h with h | h
    · exact h
    · rw [h]
      show (acc.2.lookupKey i).isSome = false
      rw [hnone]
      rfl

theorem foldl_walkKeyword_hasKey
    (w : CompState → JVal → String → Option Nat → CompState × JVal)
    (fl : String) (pidx : Option Nat) (is2 : List String) :
    ∀ (acc : CompState × JVal) (k : String),
    (acc.2.hasKey k = false ∨ k ∈ is2) →
    ((is2.foldl (walkKeyword w fl pidx) acc).2).hasKey k = false := by
  induction is2 with
  | nil =>
    intro acc k h
    rcases h with h | h
    · exact h
    · cases h
  | cons i rest ih =>
    intro acc k h
    show ((rest.foldl (walkKeyword w fl pidx)
      (walkKeyword w fl pidx acc i)).2).hasKey k = false
    apply ih
    rcases h with h | h
    · exact Or.inl (walkKeyword_hasKey w fl pidx acc i k (Or.inl h))
    · rcases List.mem_cons.mp h with h2 | h2
      · exact Or.inl (walkKeyword_hasKey w fl pidx acc i k (Or.inr h2))
      · exact Or.inr h2

theorem walkProperties_residual
    (w : CompState → JVal → String → Option Nat → CompState × JVal)
    (fl : String) (pidx : Option Nat) (acc : CompState × JVal) :
    (walkProperties w fl pidx acc).2 = acc.2.eraseKey "properties" ∨
      (acc.2.lookupKey "properties" = none ∧ (walkProperties w fl pidx acc).2 = acc.2) := by
  simp only [walkProperties]
  split
  · next heq => exact Or.inr ⟨heq, rfl⟩
  · next heq =>
    split
    · exact Or.inl rfl
    · exact Or.inl rfl

theorem walkProperties_hasKey
    (w : CompState → JVal → String → Option Nat → CompState × JVal)
    (fl : String) (pidx : Option Nat) (acc : CompState × JVal) (k : String)
    (h : acc.2.hasKey k = false ∨ k = "properties") :
    ((walkProperties w fl pidx acc).2).hasKey k = false := by
  rcases walkProperties_residual w fl pidx acc with hres | ⟨hnone, hres⟩
  · rw [hres]
    rcases h with h | h
    · exact hasKey_eraseKey_pres _ _ _ h
    · rw [h]
      exact hasKey_eraseKey_self _ _
  · rw [hres]
    rcases h with h | h
    · exact h
    · rw [h]
      show (acc.2.lookupKey "properties").isSome = false
      rw [hnone]
      rfl

theorem walkPatternProperties_residual
    (w : CompState → JVal → String → Option Nat → CompState × JVal)
    (fl : String) (pidx : Option Nat) (acc : CompState × JVal) :
    (walkPatternProperties w fl pidx acc).2 = acc.2.eraseKey "patternProperties" := by
  simp only [walkPatternProperties]
  split
  · split
    · rfl
    · rfl
  · rfl
  · rfl

theorem walkPatternProperties_hasKey
    (w : CompState → JVal → String → Option Nat → CompState × JVal)
    (fl : String) (pidx : Option Nat) (acc : CompState × JVal) (k : String)
    (h : acc.2.hasKey k = false ∨ k = "patternProperties") :
    ((walkPatternProperties w fl pidx acc).2).hasKey k = false := by
  rw [walkPatternProperties_residual]
  rcases h with h | h
  · exact hasKey_eraseKey_pres _ _ _ h
  · rw [h]
    exact hasKey_eraseKey_self _ _

theorem create_schema_node_visited (st : CompState) (pidx : Option Nat) (tag fl : String)
    (ip : Bool) (sub : Option JVal) (m : Bool) :
    (create_schema_node st pidx tag fl ip sub m).1.visited = st.visited := by
  unfold create_schema_node
  cases pidx with
  | none => rfl
  | some p => rfl

theorem chainSearch_visited (extT : ExtMapping) (fuel : Nat) :
    ∀ (st : CompState) (pn : Option Nat) (skip : Bool),
    (chainSearch extT fuel st pn skip).1.visited = st.visited := by
  induction fuel with
  | zero => intro st pn skip; rfl
  | succ fuel ih =>
    intro st pn skip
    cases pn with
    | none => rfl
    | some i =>
      show (chainSearch extT (fuel + 1) st (some i) skip).1.visited = st.visited
      unfold chainSearch
      cases hn : st.nodes[i]? with
      | none => rfl
      | some n =>
        simp only []
        by_cases h1 : (n.tag == "$ref") = true
        · rw [if_pos h1]
          by_cases h2 : ((n.subschema.getD .null).lookupKey
              "x-bblocks-extension-source").isSome = true
          · rw [if_pos h2]
            exact ih st n.parent true
          · rw [if_neg h2]
            exact ih _ n.parent skip
        · rw [if_neg h1]
          by_cases h3 : (n.tag != "[]" &&
              (!(n.tag == "oneOf" || n.tag == "allOf" || n.tag == "anyOf") ||
                (childIndices st.nodes i).length > 1)) = true
          · rw [if_pos h3]
          · rw [if_neg h3]
            exact ih st n.parent skip
theorem walkRefPhase_residual
    (w : CompState → JVal → String → Option Nat → CompState × JVal)
    (st : CompState) (sub : JVal) (fl : String) (pidx : Option Nat) :
    (walkRefPhase w st sub fl pidx).2.1 = sub.eraseKey "$ref" ∨
      (sub.lookupKey "$ref" = none ∧ (walkRefPhase w st sub fl pidx).2.1 = sub) := by
  unfold walkRefPhase
  cases hr : sub.lookupKey "$ref" with
  | none => exact Or.inr ⟨rfl, rfl⟩
  | some refVal => exact Or.inl rfl

theorem walkRefPhase_flag
    (w : CompState → JVal → String → Option Nat → CompState × JVal)
    (st : CompState) (sub : JVal) (fl : String) (pidx : Option Nat)
    (h : (walkRefPhase w st sub fl pidx).2.2 = true) :
    ∃ t, refTargetOf sub fl = some t ∧ st.visited.contains t = true := by
  simp only [walkRefPhase] at h
  cases hr : sub.lookupKey "$ref" with
  | none =>
    rw [hr] at h
    simp at h
  | some refVal =>
    rw [hr] at h
    refine ⟨resolve_location (strOfJVal refVal) fl, by simp [refTargetOf, hr], ?_⟩
    cases hm : lookupAssoc st.mappings (resolve_location (strOfJVal refVal) fl) with
    | none =>
      simp only [hm, Option.isSome_none, Bool.false_eq_true, if_false,
        create_schema_node_visited] at h
      exact h
    | some extT =>
      by_cases hsk : (chainSearch extT (st.nodes.length + 1) st pidx false).2 = true
      · simp only [hm] at h
        rw [if_pos hsk] at h
        simp only [chainSearch_visited] at h
        exact h
      · simp only [hm] at h
        rw [if_neg hsk] at h
        simp only [create_schema_node_visited, chainSearch_visited] at h
        exact h

/-- Chaining the four post-reference phases: a key absent from the input
residual, or popped by one of the phases, is absent from the final
residual. -/
theorem walkPhases_hasKey
    (w : CompState → JVal → String → Option Nat → CompState × JVal)
    (fl : String) (pidx : Option Nat) (ps is2 : List String)
    (acc : CompState × JVal) (k : String)
    (h : acc.2.hasKey k = false ∨ k ∈ ps ∨ k ∈ is2 ∨ k = "properties" ∨
      k = "patternProperties") :
    ((walkPatternProperties w fl pidx (walkProperties w fl pidx
      (is2.foldl (walkKeyword w fl pidx)
        (ps.foldl (walkCombinator w fl pidx) acc)))).2).hasKey k = false := by
  rcases h with h | h | h | h | h
  · exact walkPatternProperties_hasKey w fl pidx _ k (Or.inl (walkProperties_hasKey w fl pidx _ k
      (Or.inl (foldl_walkKeyword_hasKey w fl pidx is2 _ k (Or.inl
        (foldl_walkCombinator_hasKey w fl pidx ps acc k (Or.inl h)))))))
  · exact walkPatternProperties_hasKey w fl pidx _ k (Or.inl (walkProperties_hasKey w fl pidx _ k
      (Or.inl (foldl_walkKeyword_hasKey w fl pidx is2 _ k (Or.inl
        (foldl_walkCombinator_hasKey w fl pidx ps acc k (Or.inr h)))))))
  · exact walkPatternProperties_hasKey w fl pidx _ k (Or.inl (walkProperties_hasKey w fl pidx _ k
      (Or.inl (foldl_walkKeyword_hasKey w fl pidx is2 _ k (Or.inr h)))))
  · exact walkPatternProperties_hasKey w fl pidx _ k (Or.inl (walkProperties_hasKey w fl pidx _ k
      (Or.inr h)))
  · exact walkPatternProperties_hasKey w fl pidx _ k (Or.inr h)

/-- C10 (amended): for every non-empty dict the walk processes whose
`$ref` target (if any) is not already visited, the residual written back
in place has every handled key (`$ref`, the combinators, the
single-subschema keywords, `properties`, `patternProperties`) removed;
at an already-visited `$ref` target the walk returns early and only
`$ref` itself is removed. -/
theorem walk_subschema_residual (fuel : Nat) (st : CompState)
    (fields : List (String × JVal)) (fl : String) (pidx : Option Nat)
    (hne : fields.isEmpty = false)
    (hnov : ∀ t, refTargetOf (.obj fields) fl = some t → st.visited.contains t = false)
    (k : String) (hk : k ∈ handledKeys) :
    ((walk_subschema (fuel + 1) st (.obj fields) fl pidx).2).hasKey k = false := by
  rcases href : walkRefPhase (walk_subschema fuel) st (.obj fields) fl pidx
    with ⟨st1, sub1, flag⟩
  cases flag with
  | true =>
    obtain ⟨t, ht, hcont⟩ := walkRefPhase_flag (walk_subschema fuel) st (.obj fields) fl pidx
      (by rw [href])
    rw [hnov t ht] at hcont
    exact absurd hcont Bool.false_ne_true
  | false =>
    have heq : walk_subschema (fuel + 1) st (.obj fields) fl pidx =
        walkPatternProperties (walk_subschema fuel) fl pidx
          (walkProperties (walk_subschema fuel) fl pidx
            ((["prefixItems", "items", "contains", "then", "else",
              "additionalProperties"]).foldl (walkKeyword (walk_subschema fuel) fl pidx)
              ((["oneOf", "allOf", "anyOf"]).foldl
                (walkCombinator (walk_subschema fuel) fl pidx) (st1, sub1)))) := by
      simp only [walk_subschema]
      rw [if_neg (by simp [hne]), href]
    have hs1 : sub1.hasKey "$ref" = false := by
      rcases walkRefPhase_residual (walk_subschema fuel) st (.obj fields) fl pidx
        with hres | ⟨hrnone, hres⟩
      · rw [href] at hres
        have h2 : sub1 = (JVal.obj fields).eraseKey "$ref" := hres
        rw [h2]
        exact hasKey_eraseKey_self _ _
      · rw [href] at hres
        have h2 : sub1 = JVal.obj fields := hres
        rw [h2]
        show ((JVal.obj fields).lookupKey "$ref").isSome = false
        rw [hrnone]
        rfl
    have hcases : sub1.hasKey k = false ∨
        k ∈ (["oneOf", "allOf", "anyOf"] : List String) ∨
        k ∈ (["prefixItems", "items", "contains", "then", "else",
          "additionalProperties"] : List String) ∨
        k = "properties" ∨ k = "patternProperties" := by
      by_cases hkr : k = "$ref"
      · rw [hkr]
        exact Or.inl hs1
      · simp only [handledKeys, List.mem_cons, List.not_mem_nil, or_false] at hk
        rcases hk with rfl | rfl | rfl | rfl | rfl | rfl | rfl | rfl | rfl | rfl | rfl | rfl
        · exact absurd rfl hkr
        all_goals first
          | exact Or.inr (Or.inl (by decide))
          | exact Or.inr (Or.inr (Or.inl (by decide)))
          | exact Or.inr (Or.inr (Or.inr (Or.inl rfl)))
          | exact Or.inr (Or.inr (Or.inr (Or.inr rfl)))
    rw [heq]
    exact walkPhases_hasKey (walk_subschema fuel) fl pidx _ _ (st1, sub1) k hcases

theorem walk_subschema_residual_witness :
    ([("properties", JVal.num 1)] : List (String × JVal)).isEmpty = false ∧
    (∀ t, refTargetOf (.obj [("properties", JVal.num 1)]) "doc.yaml" = some t →
      (⟨[], [], [], [], []⟩ : CompState).visited.contains t = false) ∧
    "properties" ∈ handledKeys ∧
    ((walk_subschema 3 ⟨[], [], [], [], []⟩ (.obj [("properties", JVal.num 1)])
      "doc.yaml" none).2).hasKey "properties" = false :=
  ⟨rfl, fun t ht => by simp [refTargetOf, JVal.lookupKey, lookupField] at ht,
    by decide,
    walk_subschema_residual 2 ⟨[], [], [], [], []⟩ [("properties", JVal.num 1)]
      "doc.yaml" none rfl
      (fun t ht => by simp [refTargetOf, JVal.lookupKey, lookupField] at ht)
      "properties" (by decide)⟩

/-- A reference chain root10 → a → b → a where `b.yaml` also declares
`properties`: when `b.yaml` is walked, its `$ref` target `a.yaml` is
already visited. -/
def c10Docs : List (String × JVal) := [
  ("root10.yaml", .obj [("$ref", .str "a.yaml")]),
  ("a.yaml", .obj [("$ref", .str "b.yaml")]),
  ("b.yaml", .obj [("$ref", .str "a.yaml"),
    ("properties", .obj [("p", .obj [])])])]

def c10State : CompState :=
  (process_schema c10Docs [] "P" [] "root10.yaml" "root10.yaml" 10).2

/-- C10 (counterexample): the walk is indeed not read-only — `$ref` is
removed in place everywhere — but at `b.yaml`, a dict the walk visits
whose `$ref` target is already visited, the walk returns early and the
in-memory document keeps its `properties` key, contradicting the claim
that every handled key is removed at every visited position. -/
theorem visited_target_keys_retained_counterexample :
    "b.yaml" ∈ c10State.visited ∧
    lookupAssoc c10State.docs "b.yaml" =
      some (.obj [("properties", .obj [("p", .obj [])])]) ∧
    lookupAssoc c10State.docs "a.yaml" = some (.obj []) ∧
    lookupAssoc c10State.docs "root10.yaml" = some (.obj []) :=
  ⟨by decide, rfl, rfl, rfl⟩

/-- The C2 scenario: parent schema `{"allOf":[{"$ref":"s.yaml"}]}` with
`s.yaml = {"type":"object"}`, extension substituting block `S` (owning
`s.yaml`) with target `T` (owning `t.yaml`). -/
def c2Docs : List (String × JVal) := [
  ("parent.yaml", .obj [("allOf", .arr [.obj [("$ref", .str "s.yaml")]])]),
  ("s.yaml", .obj [("type", .str "object")]),
  ("t.yaml", .obj [("type", .str "string")])]

def c2Map : List (String × ExtMapping) := [("s.yaml", ⟨"S", "T", "t.yaml"⟩)]

def c2Composed : JVal :=
  (process_schema c2Docs c2Map "P" [("S", "T")] "parent.yaml" "parent.yaml" 100).1

/-- C2 (counterexample): in the scenario the composed `allOf` has the
parent reference first, but the substitution branch is a nested
`{"allOf":[{...}]}` whose inner object carries
`x-bblocks-extension-source` / `x-bblocks-extension-target` keys — the
branch itself has no `$ref` and no `x-extension-source` key, so it is
not the flat `{"$ref":"t.yaml","x-extension-source":"S",
"x-extension-target":"T"}` object the claim states. -/
theorem extension_branch_shape_counterexample :
    (allOfBranches c2Composed).length = 2 ∧
    (allOfBranches c2Composed)[0]? = some (.obj [("$ref", .str "parent.yaml")]) ∧
    (allOfBranches c2Composed)[1]? = some (.obj [("allOf", .arr [.obj [
      ("$ref", .str "t.yaml"),
      ("x-bblocks-extension-source", .str "S"),
      ("x-bblocks-extension-target", .str "T")]])]) ∧
    ((allOfBranches c2Composed)[1]?.getD JVal.null).hasKey "$ref" = false ∧
    ((allOfBranches c2Composed)[1]?.getD JVal.null).hasKey "x-extension-source" = false :=
  ⟨rfl, rfl, rfl, rfl, rfl⟩

/-- C2 (amended): the composed output in the scenario is the object
`{$schema, x-bblocks-extends: "P", x-bblocks-extensions: {S: "T"},
allOf: [{$ref: parent.yaml}, {allOf: [{$ref: t.yaml,
x-bblocks-extension-source: "S", x-bblocks-extension-target: "T"}]}]}`:
the substitution appears as one nested `allOf` branch annotated with
`x-bblocks-*` keys. -/
theorem compose_scenario_output :
    c2Composed = .obj [
      ("$schema", .str "https://json-schema.org/draft/2020-12/schema"),
      ("x-bblocks-extends", .str "P"),
      ("x-bblocks-extensions", .obj [("S", .str "T")]),
      ("allOf", .arr [
        .obj [("$ref", .str "parent.yaml")],
        .obj [("allOf", .arr [.obj [
          ("$ref", .str "t.yaml"),
          ("x-bblocks-extension-source", .str "S"),
          ("x-bblocks-extension-target", .str "T")]])]])] := rfl

/-- Entries already present under a combinator key of the schema being
rebuilt (`parent_schema.get(node.tag, [])`). -/
def combinatorEntries (ps : JVal) (tag : String) : List JVal :=
  match ps.lookupKey tag with
  | some (.arr xs) => xs
  | _ => []

/-- The C3 scenario: the extension source reference is one of three
branches of a `oneOf`. -/
def c3Docs : List (String × JVal) := [
  ("parent2.yaml", .obj [("oneOf", .arr [
    .obj [("$ref", .str "s.yaml")],
    .obj [("type", .str "number")],
    .obj [("type", .str "boolean")]])]),
  ("s.yaml", .obj [("type", .str "object")]),
  ("t.yaml", .obj [("type", .str "string")])]

def c3Composed : JVal :=
  (process_schema c3Docs c2Map "P" [("S", "T")] "parent2.yaml" "parent2.yaml" 100).1

/-- The contrasting scenario: the source reference is one of two branches
of a plain `allOf`. -/
def c3bDocs : List (String × JVal) := [
  ("parent3.yaml", .obj [("allOf", .arr [
    .obj [("$ref", .str "s.yaml")],
    .obj [("type", .str "number")]])]),
  ("s.yaml", .obj [("type", .str "object")]),
  ("t.yaml", .obj [("type", .str "string")])]

def c3bComposed : JVal :=
  (process_schema c3bDocs c2Map "P" [("S", "T")] "parent3.yaml" "parent3.yaml" 100).1

/-- C3: an emitted `oneOf`/`anyOf` container renders every child with the
force flag set; an emitted plain `allOf` renders children with the
incoming flag unchanged; a node that is neither forced nor preserved
emits nothing (the untouched empty object is returned); in the concrete
scenario all three `oneOf` branches appear in full in the composed
output, while in the `allOf` contrast the untouched branch contributes
only an empty object. -/
theorem combinator_force_propagation :
    (∀ (st : CompState) (fuel i : Nat) (ps : JVal) (force : Bool) (node : WNode),
      st.nodes[i]? = some node → (node.tag = "oneOf" ∨ node.tag = "anyOf") →
      (force = true ∨ preserve_branch st i = true) →
      walk_branch st (fuel + 1) i ps force =
        ps.setKey node.tag (.arr (combinatorEntries ps node.tag ++
          (childIndices st.nodes i).map fun c => walk_branch st fuel c (.obj []) true))) ∧
    (∀ (st : CompState) (fuel i : Nat) (ps : JVal) (force : Bool) (node : WNode),
      st.nodes[i]? = some node → node.tag = "allOf" →
      (force = true ∨ preserve_branch st i = true) →
      walk_branch st (fuel + 1) i ps force =
        ps.setKey "allOf" (.arr (combinatorEntries ps "allOf" ++
          (childIndices st.nodes i).map fun c => walk_branch st fuel c (.obj []) force))) ∧
    (∀ (st : CompState) (fuel i : Nat) (node : WNode),
      st.nodes[i]? = some node → preserve_branch st i = false →
      walk_branch st (fuel + 1) i (.obj []) false = .obj []) ∧
    (allOfBranches c3Composed)[1]? = some (.obj [("oneOf", .arr [
      .obj [("$ref", .str "t.yaml"), ("x-bblocks-extension-source", .str "S"),
        ("x-bblocks-extension-target", .str "T")],
      .obj [("type", .str "number")],
      .obj [("type", .str "boolean")]])]) ∧
    (allOfBranches c3bComposed)[1]? = some (.obj [("allOf", .arr [
      .obj [("$ref", .str "t.yaml"), ("x-bblocks-extension-source", .str "S"),
        ("x-bblocks-extension-target", .str "T")],
      .obj []])]) := by
  refine ⟨?_, ?_, ?_, ?_, ?_⟩
  · intro st fuel i ps force node hn htag hforce
    have hnp : (!force && !(preserve_branch st i)) = false := by
      rcases hforce with hf | hp
      · rw [hf]; rfl
      · rw [hp]; simp
    rcases htag with htag | htag <;>
      simp [walk_branch, hn, htag, hnp, combinatorEntries]
  · intro st fuel i ps force node hn htag hforce
    have hnp : (!force && !(preserve_branch st i)) = false := by
      rcases hforce with hf | hp
      · rw [hf]; rfl
      · rw [hp]; simp
    simp [walk_branch, hn, htag, hnp, combinatorEntries]
  · intro st fuel i node hn hp
    simp [walk_branch, hn, hp]
  · rfl
  · rfl

def c3WNode : WNode := ⟨"oneOf", "p.yaml", none, false, none, false⟩

def c3WSt : CompState := ⟨[], [], [], [c3WNode], [0]⟩

theorem combinator_force_propagation_witness :
    c3WSt.nodes[0]? = some c3WNode ∧ c3WNode.tag = "oneOf" ∧
    preserve_branch c3WSt 0 = false ∧
    walk_branch c3WSt 1 0 (.obj []) true =
      (JVal.obj []).setKey "oneOf" (.arr (combinatorEntries (.obj []) "oneOf" ++
        (childIndices c3WSt.nodes 0).map fun c => walk_branch c3WSt 0 c (.obj []) true)) ∧
    walk_branch c3WSt 1 0 (.obj []) false = .obj [] :=
  ⟨rfl, rfl, by decide,
    combinator_force_propagation.1 c3WSt 0 0 (.obj []) true c3WNode rfl (Or.inl rfl)
      (Or.inl rfl),
    combinator_force_propagation.2.2.1 c3WSt 0 0 c3WNode rfl (by decide)⟩
